import Mathlib

/- Verification of the computational core of the BFS-vs-random-walk maze
   visualization (src/python/bfs.py): maze generation, 4-directional
   neighbor enumeration, layered breadth-first search with parent
   back-pointers, path reconstruction, and the single-step random walk.

   Cells are integer pairs (x, y), exactly the Python tuples; a grid is a
   list of rows of booleans (true = free, false = wall), indexed maze[y][x].
   The Python while-loop of the search is embedded with an iteration budget
   that is proved sufficient (the termination theorem below). -/

/-- A grid coordinate, the Python tuple (x, y). -/
abbrev Cell : Type := Int × Int

/-- The maze: a list of rows of booleans, true = free and false = wall. -/
abbrev Grid : Type := List (List Bool)

/-- The BFS parent dictionary in insertion order; start maps to none. -/
abbrev Parent : Type := List (Cell × Option Cell)

/-- The four neighbor offsets in the order the source checks them:
    right, left, down, up. -/
def dirList : List (Int × Int) := [(1, 0), (-1, 0), (0, 1), (0, -1)]

/-- Reading maze[y][x]; meaningful under the bounds guards of the source. -/
def mazeAt (maze : Grid) (x y : Int) : Bool :=
  (maze.getD y.toNat []).getD x.toNat false

/-- Embeds `_neighbors(node, maze)`: the in-bounds free 4-neighbors of a
    node, in `dirList` order. -/
def neighbors (node : Cell) (maze : Grid) : List Cell :=
  dirList.filterMap (fun d =>
    if 0 ≤ node.1 + d.1 ∧ node.1 + d.1 < (maze.length : Int) ∧
       0 ≤ node.2 + d.2 ∧ node.2 + d.2 < (maze.length : Int) ∧
       mazeAt maze (node.1 + d.1) (node.2 + d.2)
    then some (node.1 + d.1, node.2 + d.2) else none)

/-- A cell is passable when it is in bounds and its grid entry is true. -/
def Passable (maze : Grid) (c : Cell) : Prop :=
  0 ≤ c.1 ∧ c.1 < (maze.length : Int) ∧ 0 ≤ c.2 ∧ c.2 < (maze.length : Int) ∧
    mazeAt maze c.1 c.2

/-- A legal move of the searches: a single 4-directional step landing on a
    passable cell. -/
def LegalMove (maze : Grid) (a b : Cell) : Prop :=
  (∃ d ∈ dirList, b = (a.1 + d.1, a.2 + d.2)) ∧ Passable maze b

instance (maze : Grid) (c : Cell) : Decidable (Passable maze c) :=
  inferInstanceAs (Decidable (0 ≤ c.1 ∧ c.1 < (maze.length : Int) ∧ 0 ≤ c.2 ∧
    c.2 < (maze.length : Int) ∧ mazeAt maze c.1 c.2))

instance (maze : Grid) (a b : Cell) : Decidable (LegalMove maze a b) :=
  inferInstanceAs (Decidable ((∃ d ∈ dirList, b = (a.1 + d.1, a.2 + d.2)) ∧
    Passable maze b))

/-- Python dict membership test for the parent map. -/
def hasKey (par : Parent) (c : Cell) : Bool :=
  par.any (fun e => decide (e.1 = c))

/-- Python dict assignment: replace in place when the key is present,
    append otherwise. -/
def dictSet (par : Parent) (k : Cell) (v : Option Cell) : Parent :=
  if hasKey par k then par.map (fun e => if e.1 = k then (k, v) else e)
  else par ++ [(k, v)]

/-- Python dict lookup: the value of the first (unique) entry for a key. -/
def dictFind (par : Parent) (c : Cell) : Option (Option Cell) :=
  (par.find? (fun e => decide (e.1 = c))).map Prod.snd

/-- The mutable state of the BFS inner loop: the tail of the queue beyond
    the current layer snapshot, the visited set, and the parent map. -/
structure SearchState where
  q : List Cell
  visited : Finset Cell
  parent : Parent

/-- One neighbor inspection of the BFS inner loop: a not-yet-visited
    neighbor is marked visited, recorded in the parent map, and enqueued. -/
def enqStep (node : Cell) (st : SearchState) (nb : Cell) : SearchState :=
  if nb ∈ st.visited then st
  else ⟨st.q ++ [nb], insert nb st.visited, dictSet st.parent nb (some node)⟩

/-- Outcome of processing one layer snapshot: either the early return of
    `_bfs_layers` upon dequeuing goal (partial layer and parent map), or
    the completed layer together with the state for the next round. -/
inductive LayerResult where
  | found : List Cell → Parent → LayerResult
  | next : List Cell → SearchState → LayerResult

/-- The inner for-loop of `_bfs_layers` over one layer snapshot: dequeue
    each node, append it to the layer, return at goal, else enqueue its
    fresh neighbors. -/
def processLayer (maze : Grid) (goal : Cell) : List Cell → SearchState → LayerResult
  | [], st => .next [] st
  | node :: rest, st =>
    if node = goal then .found [node] st.parent
    else
      match processLayer maze goal rest ((neighbors node maze).foldl (enqStep node) st) with
      | .found layer par => .found (node :: layer) par
      | .next layer st' => .next (node :: layer) st'

/-- The while-loop of `_bfs_layers`, with an explicit iteration budget; each
    round snapshots the whole queue as the current layer. The budget used by
    `bfs_layers` is proved sufficient below. -/
def bfsLoop (maze : Grid) (goal : Cell) :
    Nat → List Cell → Finset Cell → Parent → List (List Cell) × Parent
  | 0, _, _, par => ([], par)
  | fuel + 1, frontier, vis, par =>
    if frontier = [] then ([], par)
    else
      match processLayer maze goal frontier ⟨[], vis, par⟩ with
      | .found layer p => ([layer], p)
      | .next layer st =>
        if st.q = [] then ([layer], st.parent)
        else
          let r := bfsLoop maze goal fuel st.q st.visited st.parent
          (layer :: r.1, r.2)

/-- The in-bounds cells of the grid, as a finite set. -/
def cellsF (maze : Grid) : Finset Cell :=
  ((Finset.range maze.length) ×ˢ (Finset.range maze.length)).image
    (fun p => ((p.1 : Int), (p.2 : Int)))

/-- Embeds `_bfs_layers(maze, start, goal)`: queue, visited set and parent
    map start from start alone; returns the layer list and the parent map. -/
def bfs_layers (maze : Grid) (start goal : Cell) : List (List Cell) × Parent :=
  bfsLoop maze goal ((cellsF maze).card + 1) [start] {start} [(start, none)]

/-- The backward walk of `_reconstruct_path`: append the current cell, then
    follow the parent pointer until it yields none (or the key is absent).
    The budget is one more than the map size, enough for any chain the
    search produces. -/
def reconstructAux (par : Parent) : Nat → Cell → List Cell → List Cell
  | 0, _, path => path
  | fuel + 1, cur, path =>
    match dictFind par cur with
    | some (some p) => reconstructAux par fuel p (path ++ [cur])
    | _ => path ++ [cur]

/-- Embeds `_reconstruct_path(parent, start, goal)`: empty when goal is not
    a key, otherwise the backward walk from goal, reversed. -/
def reconstruct_path (par : Parent) (start goal : Cell) : List Cell :=
  if hasKey par goal then (reconstructAux par (par.length + 1) goal []).reverse
  else []

/-- Deterministic model of the external seeded pseudo-random source (the
    library behind random.seed / random.random / random.choice): a linear
    congruential step over an explicit state. -/
def nextRand (s : Nat) : Nat := (s * 1103515245 + 12345) % 2 ^ 31

/-- One draw of random.random() in the model: a rational in [0, 1) and the
    successor state. -/
def randFloat (s : Nat) : ℚ × Nat :=
  ((nextRand s : ℚ) / 2 ^ 31, nextRand s)

/-- random.seed(seed) in the model: the state becomes a function of the
    seed alone. -/
def seedState (seed : Nat) : Nat := seed % 2 ^ 31

/-- random.choice over a nonempty list in the model. -/
def randChoice (l : List Cell) (s : Nat) : Cell × Nat :=
  (l.getD (nextRand s % l.length) ((0 : Int), (0 : Int)), nextRand s)

/-- One row of `_generate_maze`: n draws, each free iff the draw exceeds
    the wall probability. -/
def genRow (wall_prob : ℚ) (n : Nat) (s : Nat) : List Bool × Nat :=
  (List.range n).foldl (fun acc _ =>
    ((acc.1 ++ [decide (wall_prob < (randFloat acc.2).1)], (randFloat acc.2).2)))
    ([], s)

/-- Embeds `_generate_maze(n, wall_prob, seed)` with the ambient random
    state passed explicitly: a provided seed reseeds the source, and n rows
    of n draws each are produced. -/
def generate_maze (n : Int) (wall_prob : ℚ) (seed : Option Nat) (s : Nat) :
    Grid × Nat :=
  let s0 := match seed with | some sd => seedState sd | none => s
  (List.range n.toNat).foldl (fun acc _ =>
    ((acc.1 ++ [(genRow wall_prob n.toNat acc.2).1], (genRow wall_prob n.toNat acc.2).2)))
    ([], s0)

/-- One step of the random walker (the movement core of rw_updater): stay
    put when there are no open neighbors, otherwise move to a randomly
    chosen one. -/
def step_random_walk (maze : Grid) (pos : Cell) (s : Nat) : Cell × Nat :=
  if neighbors pos maze = [] then (pos, s)
  else randChoice (neighbors pos maze) s

/-- Neighbor closure of a set of cells. -/
def nbrFinset (maze : Grid) (s : Finset Cell) : Finset Cell :=
  s.biUnion (fun c => (neighbors c maze).toFinset)

/-- Cells connected to start by at most k legal moves. -/
def ball (maze : Grid) (start : Cell) : Nat → Finset Cell
  | 0 => {start}
  | k + 1 => ball maze start k ∪ nbrFinset maze (ball maze start k)

/-- Cells whose graph distance from start is exactly k. -/
def sphere (maze : Grid) (start : Cell) : Nat → Finset Cell
  | 0 => {start}
  | k + 1 => ball maze start (k + 1) \ ball maze start k

/-- All cells reachable from start: the balls stabilize within one step per
    cell of the grid. -/
def reachSet (maze : Grid) (start : Cell) : Finset Cell :=
  ball maze start ((cellsF maze).card + 1)

/-- A walk along the neighbor relation from start to goal (the head needs
    no passability of its own; every later cell is a neighbor, hence
    passable). -/
def IsPathFrom (maze : Grid) (start goal : Cell) (p : List Cell) : Prop :=
  p.head? = some start ∧ p.getLast? = some goal ∧
    List.Chain' (fun a b => b ∈ neighbors a maze) p

/-- A 4-directional passable path from start to goal, the notion of path of
    the specification: consecutive cells are legal moves and every cell on
    the path is passable. Its edge count is its length minus one. -/
def IsPassablePath (maze : Grid) (start goal : Cell) (p : List Cell) : Prop :=
  p.head? = some start ∧ p.getLast? = some goal ∧
    List.Chain' (LegalMove maze) p ∧ ∀ c ∈ p, Passable maze c

/-- Well-formedness of the parent map as built by the search: keys are
    never overwritten (no duplicate keys), the first entry is start with the
    none sentinel, only start maps to none, and every other entry points to
    an earlier key of which it is a neighbor. -/
def ParentWF (maze : Grid) (start : Cell) (par : Parent) : Prop :=
  (par.map Prod.fst).Nodup ∧
  par.head? = some (start, none) ∧
  (∀ e ∈ par, e.2 = none → e.1 = start) ∧
  (∀ (i : Nat) (h : i < par.length), ∀ p : Cell, par[i].2 = some p →
    p ∈ (par.take i).map Prod.fst ∧ par[i].1 ∈ neighbors p maze ∧
    par[i].1 ≠ start)

/-- Shortest-parentage: every recorded parent sits one BFS layer below its
    child. -/
def ParSpheres (maze : Grid) (start : Cell) (par : Parent) : Prop :=
  ∀ e ∈ par, ∀ p, e.2 = some p →
    ∃ j, p ∈ sphere maze start j ∧ e.1 ∈ sphere maze start (j + 1)

/-- The invariant tying a search state to the distance geometry: at round k
    the frontier lists exactly the cells at distance k without duplicates,
    the visited set is the ball of radius k, and the parent map is a
    well-formed map whose keys are exactly the visited cells. -/
structure Valid (maze : Grid) (start : Cell) (k : Nat)
    (frontier : List Cell) (vis : Finset Cell) (par : Parent) : Prop where
  fnodup : frontier.Nodup
  ffin : frontier.toFinset = sphere maze start k
  vball : vis = ball maze start k
  keysq : ((par.map Prod.fst).toFinset : Finset Cell) = vis
  pwf : ParentWF maze start par
  psph : ParSpheres maze start par

/-- Reading one grid cell through an explicit store, for the frame
    theorems: the grid travels through every operation and comes back. -/
def readCell (x y : Int) (g : Grid) : Bool × Grid :=
  ((g.getD y.toNat []).getD x.toNat false, g)

/-- Store-passing `_neighbors`: every access to the grid goes through
    `readCell` and the grid is threaded through the fold. -/
def neighborsSt (node : Cell) (g : Grid) : List Cell × Grid :=
  dirList.foldl (fun acc d =>
    let r := readCell (node.1 + d.1) (node.2 + d.2) acc.2
    if 0 ≤ node.1 + d.1 ∧ node.1 + d.1 < (r.2.length : Int) ∧
       0 ≤ node.2 + d.2 ∧ node.2 + d.2 < (r.2.length : Int) ∧ r.1
    then (acc.1 ++ [(node.1 + d.1, node.2 + d.2)], r.2) else (acc.1, r.2))
    ([], g)

/-- Store-passing inner loop of the search. -/
def processLayerSt (goal : Cell) : List Cell → SearchState → Grid → LayerResult × Grid
  | [], st, g => (.next [] st, g)
  | node :: rest, st, g =>
    if node = goal then (.found [node] st.parent, g)
    else
      let r := neighborsSt node g
      match processLayerSt goal rest (r.1.foldl (enqStep node) st) r.2 with
      | (.found layer par, g') => (.found (node :: layer) par, g')
      | (.next layer st', g') => (.next (node :: layer) st', g')

/-- Store-passing while-loop of the search. -/
def bfsLoopSt (goal : Cell) :
    Nat → List Cell → Finset Cell → Parent → Grid → (List (List Cell) × Parent) × Grid
  | 0, _, _, par, g => (([], par), g)
  | fuel + 1, frontier, vis, par, g =>
    if frontier = [] then (([], par), g)
    else
      match processLayerSt goal frontier ⟨[], vis, par⟩ g with
      | (.found layer p, g') => (([layer], p), g')
      | (.next layer st, g') =>
        if st.q = [] then (([layer], st.parent), g')
        else
          let r := bfsLoopSt goal fuel st.q st.visited st.parent g'
          ((layer :: r.1.1, r.1.2), r.2)

/-- Store-passing `_bfs_layers`. -/
def bfs_layersSt (start goal : Cell) (g : Grid) : (List (List Cell) × Parent) × Grid :=
  bfsLoopSt goal ((cellsF g).card + 1) [start] {start} [(start, none)] g

/-- Store-passing `_reconstruct_path`; the source never touches the grid
    here, so the store passes through untouched. -/
def reconstruct_pathSt (par : Parent) (start goal : Cell) (g : Grid) :
    List Cell × Grid :=
  (reconstruct_path par start goal, g)

/-- Store-passing random-walk step. -/
def step_random_walkSt (pos : Cell) (s : Nat) (g : Grid) : (Cell × Nat) × Grid :=
  let r := neighborsSt pos g
  if r.1 = [] then ((pos, s), r.2) else (randChoice r.1 s, r.2)

/- ------------------------------------------------------------------ -/
/- Neighbors and cells                                                -/
/- ------------------------------------------------------------------ -/

/-- Membership in the neighbor list is exactly a legal move of the grid. -/
theorem mem_neighbors_iff {maze : Grid} {a b : Cell} :
    b ∈ neighbors a maze ↔ LegalMove maze a b := by
  unfold neighbors LegalMove Passable
  rw [List.mem_filterMap]
  constructor
  · rintro ⟨d, hd, hf⟩
    split_ifs at hf with h
    obtain rfl : (a.1 + d.1, a.2 + d.2) = b := by simpa using hf
    exact ⟨⟨d, hd, rfl⟩, h⟩
  · rintro ⟨⟨d, hd, rfl⟩, h⟩
    exact ⟨d, hd, by rw [if_pos h]⟩

/-- A neighbor is passable. -/
theorem passable_of_mem_neighbors {maze : Grid} {a b : Cell}
    (h : b ∈ neighbors a maze) : Passable maze b :=
  (mem_neighbors_iff.mp h).2

/-- The neighbor list never repeats a cell. -/
theorem neighbors_nodup (a : Cell) (maze : Grid) : (neighbors a maze).Nodup := by
  unfold neighbors
  apply List.Nodup.filterMap
  · intro d d' b hb hb'
    rw [Option.mem_def] at hb hb'
    split_ifs at hb hb'
    have e1 := Option.some.inj hb
    have e2 := Option.some.inj hb'
    rw [← e2] at e1
    have h1 : a.1 + d.1 = a.1 + d'.1 := congrArg Prod.fst e1
    have h2 : a.2 + d.2 = a.2 + d'.2 := congrArg Prod.snd e1
    exact Prod.ext (by omega) (by omega)
  · decide

/-- Every passable cell is an in-bounds cell. -/
theorem mem_cellsF_of_passable {maze : Grid} {b : Cell}
    (h : Passable maze b) : b ∈ cellsF maze := by
  obtain ⟨h1, h2, h3, h4, _⟩ := h
  unfold cellsF
  rw [Finset.mem_image]
  refine ⟨(b.1.toNat, b.2.toNat), ?_, ?_⟩
  · rw [Finset.mem_product, Finset.mem_range, Finset.mem_range]
    constructor <;> omega
  · have e1 : (b.1.toNat : Int) = b.1 := Int.toNat_of_nonneg h1
    have e2 : (b.2.toNat : Int) = b.2 := Int.toNat_of_nonneg h3
    exact Prod.ext e1 e2

/-- Neighbors live among the in-bounds cells. -/
theorem mem_cellsF_of_mem_neighbors {maze : Grid} {a b : Cell}
    (h : b ∈ neighbors a maze) : b ∈ cellsF maze :=
  mem_cellsF_of_passable (passable_of_mem_neighbors h)

/- ------------------------------------------------------------------ -/
/- Balls and spheres of the grid graph                                -/
/- ------------------------------------------------------------------ -/

theorem mem_nbrFinset {maze : Grid} {s : Finset Cell} {x : Cell} :
    x ∈ nbrFinset maze s ↔ ∃ c ∈ s, x ∈ neighbors c maze := by
  unfold nbrFinset
  simp

theorem ball_subset_succ (maze : Grid) (start : Cell) (k : Nat) :
    ball maze start k ⊆ ball maze start (k + 1) := by
  intro x hx
  rw [show ball maze start (k + 1) =
      ball maze start k ∪ nbrFinset maze (ball maze start k) from rfl]
  exact Finset.mem_union_left _ hx

theorem ball_mono (maze : Grid) (start : Cell) {k m : Nat} (h : k ≤ m) :
    ball maze start k ⊆ ball maze start m := by
  induction m with
  | zero => simp [Nat.le_zero.mp h]
  | succ t ih =>
    rcases Nat.lt_or_ge k (t + 1) with h' | h'
    · exact fun x hx => ball_subset_succ maze start t
        (ih (Nat.lt_succ_iff.mp h') hx)
    · have : k = t + 1 := Nat.le_antisymm h h'
      subst this
      exact fun x hx => hx

theorem start_mem_ball (maze : Grid) (start : Cell) (k : Nat) :
    start ∈ ball maze start k :=
  ball_mono maze start (Nat.zero_le k) (by simp [ball])

theorem sphere_subset_ball (maze : Grid) (start : Cell) (k : Nat) :
    sphere maze start k ⊆ ball maze start k := by
  cases k with
  | zero => exact fun x hx => hx
  | succ t => exact fun x hx => (Finset.mem_sdiff.mp hx).1

theorem ball_succ_eq_union_sphere (maze : Grid) (start : Cell) (k : Nat) :
    ball maze start (k + 1) = ball maze start k ∪ sphere maze start (k + 1) := by
  ext x
  rw [show sphere maze start (k + 1) =
      ball maze start (k + 1) \ ball maze start k from rfl]
  constructor
  · intro hx
    by_cases h : x ∈ ball maze start k
    · exact Finset.mem_union_left _ h
    · exact Finset.mem_union_right _ (Finset.mem_sdiff.mpr ⟨hx, h⟩)
  · intro hx
    rcases Finset.mem_union.mp hx with h | h
    · exact ball_subset_succ maze start k h
    · exact (Finset.mem_sdiff.mp h).1

theorem sphere_disjoint_ball {maze : Grid} {start : Cell} {j k : Nat}
    (h : j ≤ k) {x : Cell} (hx : x ∈ sphere maze start (k + 1)) :
    x ∉ ball maze start j := by
  intro hb
  exact (Finset.mem_sdiff.mp hx).2 (ball_mono maze start h hb)

/-- Distinct spheres are disjoint. -/
theorem sphere_disjoint {maze : Grid} {start : Cell} {j k : Nat}
    (h : j ≠ k) {x : Cell} (hx : x ∈ sphere maze start j) :
    x ∉ sphere maze start k := by
  intro hx'
  rcases Nat.lt_or_ge j k with hlt | hge
  · obtain ⟨t, rfl⟩ : ∃ t, k = t + 1 := ⟨k - 1, by omega⟩
    have hxb : x ∈ ball maze start t :=
      ball_mono maze start (show j ≤ t by omega) (sphere_subset_ball maze start j hx)
    exact sphere_disjoint_ball (le_refl t) hx' hxb
  · have hlt : k < j := by omega
    obtain ⟨t, rfl⟩ : ∃ t, j = t + 1 := ⟨j - 1, by omega⟩
    have hxb : x ∈ ball maze start t :=
      ball_mono maze start (show k ≤ t by omega) (sphere_subset_ball maze start k hx')
    exact sphere_disjoint_ball (le_refl t) hx hxb

/-- The next ball grows only through the current sphere. -/
theorem ball_succ_sphere (maze : Grid) (start : Cell) (k : Nat) :
    ball maze start (k + 1) = ball maze start k ∪ nbrFinset maze (sphere maze start k) := by
  induction k with
  | zero => rfl
  | succ t ih =>
    ext x
    constructor
    · intro hx
      rcases Finset.mem_union.mp hx with h | h
      · exact Finset.mem_union_left _ h
      · obtain ⟨c, hc, hxc⟩ := mem_nbrFinset.mp h
        rw [ball_succ_eq_union_sphere] at hc
        rcases Finset.mem_union.mp hc with hc' | hc'
        · refine Finset.mem_union_left _ ?_
          rw [show ball maze start (t + 1) =
              ball maze start t ∪ nbrFinset maze (ball maze start t) from rfl]
          exact Finset.mem_union_right _ (mem_nbrFinset.mpr ⟨c, hc', hxc⟩)
        · exact Finset.mem_union_right _ (mem_nbrFinset.mpr ⟨c, hc', hxc⟩)
    · intro hx
      rcases Finset.mem_union.mp hx with h | h
      · exact ball_subset_succ maze start (t + 1) h
      · obtain ⟨c, hc, hxc⟩ := mem_nbrFinset.mp h
        rw [show ball maze start (t + 1 + 1) =
            ball maze start (t + 1) ∪ nbrFinset maze (ball maze start (t + 1)) from rfl]
        exact Finset.mem_union_right _
          (mem_nbrFinset.mpr ⟨c, sphere_subset_ball maze start (t + 1) hc, hxc⟩)

/-- Once a ball stops growing it never grows again. -/
theorem ball_stab {maze : Grid} {start : Cell} {k : Nat}
    (h : ball maze start (k + 1) = ball maze start k) :
    ∀ m, ball maze start (k + m) = ball maze start k := by
  intro m
  induction m with
  | zero => rfl
  | succ t ih =>
    have e : ball maze start (k + t + 1) =
        ball maze start (k + t) ∪ nbrFinset maze (ball maze start (k + t)) := rfl
    have e2 : ball maze start (k + 1) =
        ball maze start k ∪ nbrFinset maze (ball maze start k) := rfl
    rw [show k + (t + 1) = k + t + 1 from rfl, e, ih, ← e2]
    exact h

theorem ball_eq_of_sphere_empty {maze : Grid} {start : Cell} {k : Nat}
    (h : sphere maze start (k + 1) = ∅) :
    ball maze start (k + 1) = ball maze start k := by
  rw [ball_succ_eq_union_sphere, h, Finset.union_empty]

/-- An empty sphere empties all later spheres. -/
theorem sphere_empty_succ {maze : Grid} {start : Cell} {k : Nat}
    (h : sphere maze start (k + 1) = ∅) :
    ∀ m, sphere maze start (k + 1 + m) = ∅ := by
  intro m
  have hstab := ball_stab (ball_eq_of_sphere_empty h)
  cases m with
  | zero => exact h
  | succ t =>
    have e1 : ball maze start (k + 1 + t + 1) = ball maze start k := by
      have := hstab (t + 2)
      rw [show k + (t + 2) = k + 1 + t + 1 by omega] at this
      exact this
    have e2 : ball maze start (k + 1 + t) = ball maze start k := by
      have := hstab (t + 1)
      rw [show k + (t + 1) = k + 1 + t by omega] at this
      exact this
    rw [show k + 1 + (t + 1) = (k + 1 + t) + 1 by omega]
    rw [show sphere maze start ((k + 1 + t) + 1) =
        ball maze start ((k + 1 + t) + 1) \ ball maze start (k + 1 + t) from rfl]
    rw [show (k + 1 + t) + 1 = k + 1 + t + 1 from rfl, e1, e2]
    exact Finset.sdiff_self _

/-- Balls stay inside the grid (plus the start cell itself). -/
theorem ball_subset_cells (maze : Grid) (start : Cell) (k : Nat) :
    ball maze start k ⊆ insert start (cellsF maze) := by
  induction k with
  | zero => intro x hx; simp [ball] at hx; simp [hx]
  | succ t ih =>
    intro x hx
    rcases Finset.mem_union.mp hx with h | h
    · exact ih h
    · obtain ⟨c, _, hxc⟩ := mem_nbrFinset.mp h
      exact Finset.mem_insert_of_mem (mem_cellsF_of_mem_neighbors hxc)

/-- While every sphere up to t is inhabited, the ball of radius t has more
    than t cells. -/
theorem card_ball_of_spheres {maze : Grid} {start : Cell} {t : Nat}
    (h : ∀ j, j ≤ t → (sphere maze start j).Nonempty) :
    t + 1 ≤ (ball maze start t).card := by
  induction t with
  | zero => simp [ball]
  | succ u ih =>
    have hd : Disjoint (ball maze start u) (sphere maze start (u + 1)) := by
      rw [Finset.disjoint_right]
      intro x hx
      exact sphere_disjoint_ball (le_refl u) hx
    rw [ball_succ_eq_union_sphere, Finset.card_union_of_disjoint hd]
    have h1 := ih (fun j hj => h j (Nat.le_succ_of_le hj))
    have h2 : 1 ≤ (sphere maze start (u + 1)).card :=
      Finset.Nonempty.card_pos (h (u + 1) (le_refl _))
    omega

/-- Beyond one step per grid cell, the balls have stabilized at the
    reachable set. -/
theorem ball_stab_reach (maze : Grid) (start : Cell) :
    ∀ m, ball maze start ((cellsF maze).card + 1 + m) = reachSet maze start := by
  intro m
  by_cases hstab : ∃ j, j ≤ (cellsF maze).card ∧ sphere maze start (j + 1) = ∅
  · obtain ⟨j, hj, hempty⟩ := hstab
    have hs := ball_stab (ball_eq_of_sphere_empty hempty)
    have e1 := hs ((cellsF maze).card + 1 + m - j)
    have e2 := hs ((cellsF maze).card + 1 - j)
    rw [show j + ((cellsF maze).card + 1 + m - j) = (cellsF maze).card + 1 + m by omega] at e1
    rw [show j + ((cellsF maze).card + 1 - j) = (cellsF maze).card + 1 by omega] at e2
    unfold reachSet
    rw [e1, e2]
  · push_neg at hstab
    exfalso
    have hne : ∀ j, j ≤ (cellsF maze).card + 1 → (sphere maze start j).Nonempty := by
      intro j hj
      cases j with
      | zero => exact ⟨start, by simp [sphere]⟩
      | succ i =>
        exact Finset.nonempty_iff_ne_empty.mpr (hstab i (by omega))
    have hcard := card_ball_of_spheres hne
    have hsub := Finset.card_le_card (ball_subset_cells maze start ((cellsF maze).card + 1))
    have : (insert start (cellsF maze)).card ≤ (cellsF maze).card + 1 :=
      Finset.card_insert_le _ _
    omega

/-- Every ball is contained in the reachable set. -/
theorem ball_subset_reach (maze : Grid) (start : Cell) (k : Nat) :
    ball maze start k ⊆ reachSet maze start := by
  rcases Nat.lt_or_ge k ((cellsF maze).card + 1) with h | h
  · exact ball_mono maze start (Nat.le_of_lt h)
  · intro x hx
    have := ball_stab_reach maze start (k - ((cellsF maze).card + 1))
    rw [show (cellsF maze).card + 1 + (k - ((cellsF maze).card + 1)) = k by omega] at this
    rw [← this]
    exact hx

/-- Everything in a ball is passable once start is. -/
theorem ball_passable {maze : Grid} {start : Cell} (hs : Passable maze start) :
    ∀ {k : Nat}, ∀ c ∈ ball maze start k, Passable maze c := by
  intro k
  induction k with
  | zero => intro c hc; simp [ball] at hc; subst hc; exact hs
  | succ t ih =>
    intro c hc
    rcases Finset.mem_union.mp hc with h | h
    · exact ih c h
    · obtain ⟨b, _, hcb⟩ := mem_nbrFinset.mp h
      exact passable_of_mem_neighbors hcb

/- ------------------------------------------------------------------ -/
/- Balls and shortest paths                                           -/
/- ------------------------------------------------------------------ -/

/-- Every cell of the ball of radius k is reached by a walk of at most k
    edges. -/
theorem path_of_mem_ball {maze : Grid} {start : Cell} :
    ∀ {k : Nat} {c : Cell}, c ∈ ball maze start k →
      ∃ p, IsPathFrom maze start c p ∧ p.length ≤ k + 1 := by
  intro k
  induction k with
  | zero =>
    intro c hc
    have hc' : c = start := by simpa [ball] using hc
    exact ⟨[c], ⟨by simp [hc'], by simp, List.chain'_singleton c⟩, by simp⟩
  | succ t ih =>
    intro c hc
    rcases Finset.mem_union.mp hc with h | h
    · obtain ⟨p, hp, hlen⟩ := ih h
      exact ⟨p, hp, by omega⟩
    · obtain ⟨b, hb, hcb⟩ := mem_nbrFinset.mp h
      obtain ⟨p, ⟨hh, hl, hch⟩, hlen⟩ := ih hb
      have hpne : p ≠ [] := by
        intro e
        rw [e] at hh
        simp at hh
      refine ⟨p ++ [c], ⟨?_, ?_, ?_⟩, ?_⟩
      · rw [List.head?_append_of_ne_nil p hpne]
        exact hh
      · exact List.getLast?_concat p
      · rw [List.chain'_append]
        refine ⟨hch, List.chain'_singleton c, ?_⟩
        intro x hx y hy
        rw [hl] at hx
        simp at hx hy
        subst hx
        subst hy
        exact hcb
      · rw [List.length_append]
        simp
        omega

/-- Conversely, any walk of at most k edges ends inside the ball of
    radius k. -/
theorem mem_ball_of_path {maze : Grid} {start : Cell} :
    ∀ {k : Nat} {c : Cell} {p : List Cell}, IsPathFrom maze start c p →
      p.length ≤ k + 1 → c ∈ ball maze start k := by
  intro k
  induction k with
  | zero =>
    intro c p hp hlen
    obtain ⟨hh, hl, _⟩ := hp
    cases p with
    | nil => simp at hh
    | cons a t =>
      cases t with
      | nil =>
        have h1 : a = start := by simpa using hh
        have h2 : a = c := by simpa using hl
        rw [show ball maze start 0 = {start} from rfl, ← h2, h1]
        simp
      | cons b u => simp at hlen
  | succ t ih =>
    intro c p hp hlen
    obtain ⟨hh, hl, hch⟩ := hp
    rcases List.eq_nil_or_concat p with rfl | ⟨q, a, rfl⟩
    · simp at hh
    · rw [List.concat_eq_append] at hh hl hch hlen
      have hac : a = c := by
        rw [List.getLast?_concat] at hl
        exact Option.some.inj hl
      cases q with
      | nil =>
        have h1 : a = start := by simpa using hh
        rw [← hac, h1]
        exact start_mem_ball maze start (t + 1)
      | cons b u =>
        have hqne : (b :: u) ≠ ([] : List Cell) := by simp
        rw [List.head?_append_of_ne_nil _ hqne] at hh
        obtain ⟨hchq, _, hrel⟩ := List.chain'_append.mp hch
        have hlast : (b :: u).getLast? = some ((b :: u).getLast hqne) :=
          List.getLast?_eq_getLast _ hqne
        have hbmem : (b :: u).getLast hqne ∈ ball maze start t := by
          apply ih ⟨hh, hlast, hchq⟩
          rw [List.length_append] at hlen
          simp at hlen ⊢
          omega
        have hnb : a ∈ neighbors ((b :: u).getLast hqne) maze :=
          hrel ((b :: u).getLast hqne) hlast a rfl
        rw [← hac]
        exact Finset.mem_union_right _ (mem_nbrFinset.mpr ⟨_, hbmem, hnb⟩)

/-- From membership in the reachable set, the exact distance sphere of the
    cell, bounded by the number of grid cells. -/
theorem exists_sphere_of_mem_reach {maze : Grid} {start goal : Cell}
    (h : goal ∈ reachSet maze start) :
    ∃ d, goal ∈ sphere maze start d ∧ d ≤ (cellsF maze).card := by
  have hex : ∃ k, goal ∈ ball maze start k := ⟨(cellsF maze).card + 1, h⟩
  classical
  set d := Nat.find hex with hd
  have hmem : goal ∈ ball maze start d := Nat.find_spec hex
  have hmin : ∀ j, j < d → goal ∉ ball maze start j := fun j hj => Nat.find_min hex hj
  have hsph : goal ∈ sphere maze start d := by
    cases hdd : d with
    | zero =>
      rw [hdd] at hmem
      exact hmem
    | succ i =>
      rw [hdd] at hmem
      have := hmin i (by omega)
      exact Finset.mem_sdiff.mpr ⟨hmem, this⟩
  refine ⟨d, hsph, ?_⟩
  have hne : ∀ j, j ≤ d → (sphere maze start j).Nonempty := by
    intro j hj
    cases j with
    | zero => exact ⟨start, by simp [sphere]⟩
    | succ i =>
      by_contra hempty
      rw [Finset.not_nonempty_iff_eq_empty] at hempty
      have := sphere_empty_succ hempty (d - (i + 1))
      rw [show i + 1 + (d - (i + 1)) = d by omega] at this
      rw [this] at hsph
      simp at hsph
  have hcard := card_ball_of_spheres hne
  have hsub := Finset.card_le_card (ball_subset_cells maze start d)
  have hins : (insert start (cellsF maze)).card ≤ (cellsF maze).card + 1 :=
    Finset.card_insert_le _ _
  omega

/-- Cells on a neighbor walk starting from a passable cell are passable. -/
theorem chain_passable {maze : Grid} :
    ∀ {p : List Cell} {s : Cell}, Passable maze s →
      p.head? = some s → List.Chain' (fun a b => b ∈ neighbors a maze) p →
      ∀ c ∈ p, Passable maze c := by
  intro p
  induction p with
  | nil => intro s _ hh; simp at hh
  | cons a t ih =>
    intro s hs hh hch c hc
    have has : a = s := by simpa using hh
    rcases List.mem_cons.mp hc with hca | hct
    · rw [hca, has]
      exact hs
    · cases t with
      | nil => simp at hct
      | cons b u =>
        have hab : b ∈ neighbors a maze := (List.chain'_cons.mp hch).1
        exact ih (passable_of_mem_neighbors hab) rfl (List.chain'_cons.mp hch).2 c hct

/-- A neighbor walk from a passable start is a passable path. -/
theorem passablePath_of_pathFrom {maze : Grid} {start goal : Cell} {p : List Cell}
    (hs : Passable maze start) (h : IsPathFrom maze start goal p) :
    IsPassablePath maze start goal p := by
  obtain ⟨hh, hl, hch⟩ := h
  exact ⟨hh, hl, List.Chain'.imp (fun a b hab => mem_neighbors_iff.mp hab) hch,
    chain_passable hs hh hch⟩

/-- A passable path is in particular a neighbor walk. -/
theorem pathFrom_of_passablePath {maze : Grid} {start goal : Cell} {p : List Cell}
    (h : IsPassablePath maze start goal p) : IsPathFrom maze start goal p :=
  ⟨h.1, h.2.1, List.Chain'.imp (fun a b hab => mem_neighbors_iff.mpr hab) h.2.2.1⟩

/-- Reachability through passable paths coincides with membership in the
    reachable set. -/
theorem mem_reach_iff_passable_path {maze : Grid} {start goal : Cell}
    (hs : Passable maze start) :
    goal ∈ reachSet maze start ↔ ∃ p, IsPassablePath maze start goal p := by
  constructor
  · intro h
    obtain ⟨p, hp, _⟩ := path_of_mem_ball (k := (cellsF maze).card + 1) h
    exact ⟨p, passablePath_of_pathFrom hs hp⟩
  · rintro ⟨p, hp⟩
    have h1 := mem_ball_of_path (k := p.length) (pathFrom_of_passablePath hp)
      (by omega)
    exact ball_subset_reach maze start p.length h1

/- ------------------------------------------------------------------ -/
/- Dictionary operations                                              -/
/- ------------------------------------------------------------------ -/

theorem hasKey_iff {par : Parent} {c : Cell} :
    hasKey par c = true ↔ c ∈ par.map Prod.fst := by
  unfold hasKey
  rw [List.any_eq_true]
  constructor
  · rintro ⟨e, he, hp⟩
    exact List.mem_map.mpr ⟨e, he, of_decide_eq_true hp⟩
  · intro h
    obtain ⟨e, he, hp⟩ := List.mem_map.mp h
    exact ⟨e, he, decide_eq_true hp⟩

/-- Setting an absent key appends it. -/
theorem dictSet_append {par : Parent} {k : Cell} {v : Option Cell}
    (h : k ∉ par.map Prod.fst) : dictSet par k v = par ++ [(k, v)] := by
  unfold dictSet
  rw [if_neg]
  intro hh
  exact h (hasKey_iff.mp hh)

/-- With no duplicate keys, lookup returns the value of the entry. -/
theorem dictFind_eq_of_mem {par : Parent} (hnd : (par.map Prod.fst).Nodup)
    {c : Cell} {v : Option Cell} (h : (c, v) ∈ par) : dictFind par c = some v := by
  induction par with
  | nil => simp at h
  | cons e rest ih =>
    have hnd' := hnd
    rw [List.map_cons] at hnd'
    obtain ⟨hnotin, hndr⟩ := List.nodup_cons.mp hnd'
    rcases List.mem_cons.mp h with he | hrest
    · have h1 : (decide (e.1 = c)) = true := by rw [← he]; simp
      have hfind : List.find? (fun x => decide (x.1 = c)) (e :: rest) = some e :=
        List.find?_cons_of_pos rest h1
      unfold dictFind
      rw [hfind]
      simp [← he]
    · have hkey : c ∈ rest.map Prod.fst := List.mem_map.mpr ⟨(c, v), hrest, rfl⟩
      have hne : ¬ (decide (e.1 = c)) = true := by
        simp only [decide_eq_true_eq]
        intro hh
        rw [hh] at hnotin
        exact hnotin hkey
      have hfind : List.find? (fun x => decide (x.1 = c)) (e :: rest) =
          List.find? (fun x => decide (x.1 = c)) rest :=
        List.find?_cons_of_neg rest hne
      have ih2 := ih hndr hrest
      unfold dictFind at ih2 ⊢
      rw [hfind]
      exact ih2

/-- Lookup at the key of entry i returns the value of entry i. -/
theorem dictFind_get {par : Parent} (hnd : (par.map Prod.fst).Nodup)
    (i : Nat) (h : i < par.length) :
    dictFind par par[i].1 = some par[i].2 := by
  apply dictFind_eq_of_mem hnd
  have h1 : (par[i].1, par[i].2) = par[i] := rfl
  rw [h1]
  exact List.getElem_mem h

/- ------------------------------------------------------------------ -/
/- The neighbor-enqueuing fold of the inner loop                      -/
/- ------------------------------------------------------------------ -/

/-- Folding `enqStep` over a duplicate-free list appends exactly the fresh
    cells to the queue, adds the whole list to the visited set, and appends
    one parent entry per fresh cell. -/
theorem enq_fold_spec (node : Cell) :
    ∀ (l : List Cell) (st : SearchState), l.Nodup →
      (∀ c ∈ st.parent.map Prod.fst, c ∈ st.visited) →
      l.foldl (enqStep node) st =
        ⟨st.q ++ l.filter (fun nb => decide (nb ∉ st.visited)),
         st.visited ∪ l.toFinset,
         st.parent ++ (l.filter (fun nb => decide (nb ∉ st.visited))).map
           (fun nb => (nb, some node))⟩ := by
  intro l
  induction l with
  | nil =>
    intro st _ _
    cases st
    simp
  | cons a t ih =>
    intro st hnd hkeys
    rw [List.foldl_cons]
    by_cases hv : a ∈ st.visited
    · have hstep : enqStep node st a = st := by
        unfold enqStep
        rw [if_pos hv]
      rw [hstep, ih st (List.nodup_cons.mp hnd).2 hkeys]
      have hfil : (a :: t).filter (fun nb => decide (nb ∉ st.visited)) =
          t.filter (fun nb => decide (nb ∉ st.visited)) := by
        rw [List.filter_cons]
        simp [hv]
      have hfin : st.visited ∪ (a :: t).toFinset = st.visited ∪ t.toFinset := by
        rw [List.toFinset_cons]
        ext x
        simp only [Finset.mem_union, Finset.mem_insert]
        constructor
        · rintro (h | h | h)
          · exact Or.inl h
          · rw [h]; exact Or.inl hv
          · exact Or.inr h
        · rintro (h | h)
          · exact Or.inl h
          · exact Or.inr (Or.inr h)
      rw [hfil, hfin]
    · have hstep : enqStep node st a =
          ⟨st.q ++ [a], insert a st.visited, st.parent ++ [(a, some node)]⟩ := by
        unfold enqStep
        rw [if_neg hv, dictSet_append]
        intro hmem
        exact hv (hkeys a hmem)
      have hkeys' : ∀ c ∈ (st.parent ++ [(a, some node)]).map Prod.fst,
          c ∈ insert a st.visited := by
        intro c hc
        rw [List.map_append] at hc
        rcases List.mem_append.mp hc with h | h
        · exact Finset.mem_insert_of_mem (hkeys c h)
        · simp at h
          rw [h]
          exact Finset.mem_insert_self a _
      rw [hstep, ih _ (List.nodup_cons.mp hnd).2 hkeys']
      have hfil : t.filter (fun nb => decide (nb ∉ insert a st.visited)) =
          t.filter (fun nb => decide (nb ∉ st.visited)) := by
        apply List.filter_congr
        intro x hx
        have hxa : ¬ (x = a) := fun e => (List.nodup_cons.mp hnd).1 (e ▸ hx)
        simp [Finset.mem_insert, hxa]
      have hcons : (a :: t).filter (fun nb => decide (nb ∉ st.visited)) =
          a :: t.filter (fun nb => decide (nb ∉ st.visited)) := by
        rw [List.filter_cons]
        simp [hv]
      rw [hfil, hcons]
      have hq : (st.q ++ [a]) ++ t.filter (fun nb => decide (nb ∉ st.visited)) =
          st.q ++ a :: t.filter (fun nb => decide (nb ∉ st.visited)) := by
        rw [List.append_assoc]
        rfl
      have hvis : insert a st.visited ∪ t.toFinset =
          st.visited ∪ (a :: t).toFinset := by
        rw [List.toFinset_cons, Finset.insert_union, Finset.union_insert]
      have hpar : (st.parent ++ [(a, some node)]) ++
          (t.filter (fun nb => decide (nb ∉ st.visited))).map (fun nb => (nb, some node)) =
          st.parent ++ (a :: t.filter (fun nb => decide (nb ∉ st.visited))).map
            (fun nb => (nb, some node)) := by
        rw [List.append_assoc]
        rfl
      rw [hq, hvis, hpar]

/-- The fresh-cell filter as a set difference. -/
theorem filter_vis_toFinset (l : List Cell) (vis : Finset Cell) :
    (l.filter (fun nb => decide (nb ∉ vis))).toFinset = l.toFinset \ vis := by
  ext x
  simp only [List.mem_toFinset, List.mem_filter, Finset.mem_sdiff,
    decide_eq_true_eq]

/-- First components of the freshly appended parent entries. -/
theorem map_fst_pairs (node : Cell) (l : List Cell) :
    (l.map (fun nb => (nb, some node))).map Prod.fst = l := by
  induction l with
  | nil => rfl
  | cons a t ih => simp [ih]

/-- Processing a layer snapshot free of goal completes the whole snapshot,
    adds all its neighbors to the visited set, and appends exactly one queue
    entry and one parent entry per freshly discovered cell. -/
theorem processLayer_next (maze : Grid) (goal : Cell) :
    ∀ (todo : List Cell) (st : SearchState),
      todo.Nodup → goal ∉ todo →
      (∀ c ∈ st.parent.map Prod.fst, c ∈ st.visited) →
      ∃ newq newpar,
        processLayer maze goal todo st =
          .next todo ⟨st.q ++ newq, st.visited ∪ nbrFinset maze todo.toFinset,
            st.parent ++ newpar⟩ ∧
        newq.Nodup ∧
        newq.toFinset = nbrFinset maze todo.toFinset \ st.visited ∧
        newpar.map Prod.fst = newq ∧
        (∀ e ∈ newpar, ∃ p, e.2 = some p ∧ p ∈ todo ∧ e.1 ∈ neighbors p maze ∧
          e.1 ∉ st.visited) := by
  intro todo
  induction todo with
  | nil =>
    intro st _ _ _
    refine ⟨[], [], ?_, by simp, ?_, by simp, by simp⟩
    · show LayerResult.next [] st = _
      cases st
      simp [nbrFinset]
    · simp [nbrFinset]
  | cons node rest ih =>
    intro st hnd hgoal hkeys
    have hng : ¬ (node = goal) := by
      intro e
      exact hgoal (by rw [e]; exact List.mem_cons_self goal rest)
    have hgr : goal ∉ rest := fun h => hgoal (List.mem_cons_of_mem _ h)
    obtain ⟨hnin, hndr⟩ := List.nodup_cons.mp hnd
    have hfold := enq_fold_spec node (neighbors node maze) st
      (neighbors_nodup node maze) hkeys
    have hkeys1 : ∀ c ∈ (⟨st.q ++ (neighbors node maze).filter (fun nb => decide (nb ∉ st.visited)),
        st.visited ∪ (neighbors node maze).toFinset,
        st.parent ++ ((neighbors node maze).filter (fun nb => decide (nb ∉ st.visited))).map
          (fun nb => (nb, some node))⟩ : SearchState).parent.map Prod.fst,
        c ∈ (⟨st.q ++ (neighbors node maze).filter (fun nb => decide (nb ∉ st.visited)),
        st.visited ∪ (neighbors node maze).toFinset,
        st.parent ++ ((neighbors node maze).filter (fun nb => decide (nb ∉ st.visited))).map
          (fun nb => (nb, some node))⟩ : SearchState).visited := by
      intro c hc
      simp only [List.map_append, List.mem_append, List.map_map] at hc
      rcases hc with h | h
      · exact Finset.mem_union_left _ (hkeys c h)
      · have hcf : c ∈ (neighbors node maze).filter (fun nb => decide (nb ∉ st.visited)) := by
          simpa using h
        exact Finset.mem_union_right _
          (List.mem_toFinset.mpr (List.mem_of_mem_filter hcf))
    obtain ⟨newq', newpar', hres, hnq', hset', hmap', hent'⟩ :=
      ih _ hndr hgr hkeys1
    refine ⟨(neighbors node maze).filter (fun nb => decide (nb ∉ st.visited)) ++ newq',
      ((neighbors node maze).filter (fun nb => decide (nb ∉ st.visited))).map
        (fun nb => (nb, some node)) ++ newpar', ?_, ?_, ?_, ?_, ?_⟩
    · simp only [processLayer]
      rw [if_neg hng, hfold, hres]
      have hb : nbrFinset maze (node :: rest).toFinset =
          (neighbors node maze).toFinset ∪ nbrFinset maze rest.toFinset := by
        rw [List.toFinset_cons]
        exact Finset.biUnion_insert
      have hState : (⟨(st.q ++ (neighbors node maze).filter (fun nb => decide (nb ∉ st.visited))) ++ newq',
          (st.visited ∪ (neighbors node maze).toFinset) ∪ nbrFinset maze rest.toFinset,
          (st.parent ++ ((neighbors node maze).filter (fun nb => decide (nb ∉ st.visited))).map
            (fun nb => (nb, some node))) ++ newpar'⟩ : SearchState) =
          ⟨st.q ++ ((neighbors node maze).filter (fun nb => decide (nb ∉ st.visited)) ++ newq'),
          st.visited ∪ nbrFinset maze (node :: rest).toFinset,
          st.parent ++ (((neighbors node maze).filter (fun nb => decide (nb ∉ st.visited))).map
            (fun nb => (nb, some node)) ++ newpar')⟩ := by
        rw [SearchState.mk.injEq]
        exact ⟨List.append_assoc _ _ _, by rw [hb, Finset.union_assoc],
          List.append_assoc _ _ _⟩
      exact congrArg (LayerResult.next (node :: rest)) hState
    · apply List.Nodup.append
      · exact List.Nodup.filter _ (neighbors_nodup node maze)
      · exact hnq'
      · intro a ha ha'
        have h1 : a ∈ st.visited ∪ (neighbors node maze).toFinset :=
          Finset.mem_union_right _ (List.mem_toFinset.mpr (List.mem_of_mem_filter ha))
        have h2 : a ∉ st.visited ∪ (neighbors node maze).toFinset := by
          have := hset' ▸ List.mem_toFinset.mpr ha'
          exact (Finset.mem_sdiff.mp this).2
        exact h2 h1
    · rw [List.toFinset_append, filter_vis_toFinset, hset']
      have hb : nbrFinset maze (node :: rest).toFinset =
          (neighbors node maze).toFinset ∪ nbrFinset maze rest.toFinset := by
        rw [List.toFinset_cons]
        exact Finset.biUnion_insert
      rw [hb]
      ext x
      simp only [Finset.mem_union, Finset.mem_sdiff, not_or]
      tauto
    · rw [List.map_append, hmap', map_fst_pairs]
    · intro e he
      rcases List.mem_append.mp he with h | h
      · obtain ⟨nb, hnb, rfl⟩ := List.mem_map.mp h
        refine ⟨node, rfl, List.mem_cons_self node rest,
          List.mem_of_mem_filter hnb, ?_⟩
        have := (List.mem_filter.mp hnb).2
        exact of_decide_eq_true this
      · obtain ⟨p, h2, hp, hnbr, hnvis⟩ := hent' e h
        refine ⟨p, h2, List.mem_cons_of_mem _ hp, hnbr, ?_⟩
        intro hv
        exact hnvis (Finset.mem_union_left _ hv)

/-- Processing a layer snapshot containing goal returns early: the layer is
    the snapshot prefix through the first occurrence of goal, and only that
    prefix contributed new parent entries. -/
theorem processLayer_found (maze : Grid) (goal : Cell) :
    ∀ (todo : List Cell) (st : SearchState),
      todo.Nodup → goal ∈ todo →
      (∀ c ∈ st.parent.map Prod.fst, c ∈ st.visited) →
      ∃ pre post newpar,
        todo = pre ++ goal :: post ∧ goal ∉ pre ∧
        processLayer maze goal todo st =
          .found (pre ++ [goal]) (st.parent ++ newpar) ∧
        (newpar.map Prod.fst).Nodup ∧
        (∀ e ∈ newpar, ∃ p, e.2 = some p ∧ p ∈ pre ∧ e.1 ∈ neighbors p maze ∧
          e.1 ∉ st.visited) := by
  intro todo
  induction todo with
  | nil =>
    intro st _ hg _
    simp at hg
  | cons node rest ih =>
    intro st hnd hg hkeys
    obtain ⟨hnin, hndr⟩ := List.nodup_cons.mp hnd
    by_cases hng : node = goal
    · refine ⟨[], rest, [], ?_, ?_, ?_, ?_, ?_⟩
      · rw [hng]
        simp
      · simp
      · simp only [processLayer]
        rw [if_pos hng, hng]
        simp
      · simp
      · simp
    · have hgr : goal ∈ rest := by
        rcases List.mem_cons.mp hg with h | h
        · exact absurd h.symm hng
        · exact h
      have hfold := enq_fold_spec node (neighbors node maze) st
        (neighbors_nodup node maze) hkeys
      have hkeys1 : ∀ c ∈ (⟨st.q ++ (neighbors node maze).filter (fun nb => decide (nb ∉ st.visited)),
          st.visited ∪ (neighbors node maze).toFinset,
          st.parent ++ ((neighbors node maze).filter (fun nb => decide (nb ∉ st.visited))).map
            (fun nb => (nb, some node))⟩ : SearchState).parent.map Prod.fst,
          c ∈ (⟨st.q ++ (neighbors node maze).filter (fun nb => decide (nb ∉ st.visited)),
          st.visited ∪ (neighbors node maze).toFinset,
          st.parent ++ ((neighbors node maze).filter (fun nb => decide (nb ∉ st.visited))).map
            (fun nb => (nb, some node))⟩ : SearchState).visited := by
        intro c hc
        simp only [List.map_append, List.mem_append, List.map_map] at hc
        rcases hc with h | h
        · exact Finset.mem_union_left _ (hkeys c h)
        · have hcf : c ∈ (neighbors node maze).filter (fun nb => decide (nb ∉ st.visited)) := by
            simpa using h
          exact Finset.mem_union_right _
            (List.mem_toFinset.mpr (List.mem_of_mem_filter hcf))
      obtain ⟨pre', post', newpar', hdec, hgp, hres, hnp', hent'⟩ :=
        ih _ hndr hgr hkeys1
      refine ⟨node :: pre', post',
        ((neighbors node maze).filter (fun nb => decide (nb ∉ st.visited))).map
          (fun nb => (nb, some node)) ++ newpar', ?_, ?_, ?_, ?_, ?_⟩
      · rw [List.cons_append, hdec]
      · intro h
        rcases List.mem_cons.mp h with h | h
        · exact hng h.symm
        · exact hgp h
      · simp only [processLayer]
        rw [if_neg hng, hfold, hres]
        show LayerResult.found (node :: (pre' ++ [goal])) _ = _
        rw [List.cons_append, List.append_assoc]
      · rw [List.map_append, map_fst_pairs]
        apply List.Nodup.append
        · exact List.Nodup.filter _ (neighbors_nodup node maze)
        · exact hnp'
        · intro a ha ha'
          have haf : a ∈ (neighbors node maze).filter (fun nb => decide (nb ∉ st.visited)) := by
            simpa using ha
          obtain ⟨e, he, hefst⟩ := List.mem_map.mp ha'
          obtain ⟨p, _, _, _, hnvis⟩ := hent' e he
          apply hnvis
          rw [hefst]
          exact Finset.mem_union_right _
            (List.mem_toFinset.mpr (List.mem_of_mem_filter haf))
      · intro e he
        rcases List.mem_append.mp he with h | h
        · obtain ⟨nb, hnb, rfl⟩ := List.mem_map.mp h
          refine ⟨node, rfl, List.mem_cons_self node pre',
            List.mem_of_mem_filter hnb, ?_⟩
          exact of_decide_eq_true (List.mem_filter.mp hnb).2
        · obtain ⟨p, h2, hp, hnbr, hnvis⟩ := hent' e h
          refine ⟨p, h2, List.mem_cons_of_mem _ hp, hnbr, ?_⟩
          intro hv
          exact hnvis (Finset.mem_union_left _ hv)

/- ------------------------------------------------------------------ -/
/- Parent-map well-formedness along the search                        -/
/- ------------------------------------------------------------------ -/

/-- Appending fresh entries that point to existing keys preserves parent
    well-formedness. -/
theorem parentWF_extend {maze : Grid} {start : Cell} {par : Parent}
    {vis : Finset Cell} {dom : List Cell} {new : Parent}
    (hwf : ParentWF maze start par)
    (hkeys : ((par.map Prod.fst).toFinset : Finset Cell) = vis)
    (hdom : ∀ p ∈ dom, p ∈ par.map Prod.fst)
    (hstart : start ∈ vis)
    (hnd : (new.map Prod.fst).Nodup)
    (hent : ∀ e ∈ new, ∃ p, e.2 = some p ∧ p ∈ dom ∧ e.1 ∈ neighbors p maze ∧
      e.1 ∉ vis) :
    ParentWF maze start (par ++ new) := by
  obtain ⟨h1, h2, h3, h4⟩ := hwf
  have hfresh : ∀ e ∈ new, e.1 ∉ vis := by
    intro e he
    obtain ⟨p, _, _, _, hnv⟩ := hent e he
    exact hnv
  refine ⟨?_, ?_, ?_, ?_⟩
  · rw [List.map_append]
    apply List.Nodup.append h1 hnd
    intro a ha ha'
    obtain ⟨e, he, hef⟩ := List.mem_map.mp ha'
    apply hfresh e he
    rw [hef, ← hkeys]
    exact List.mem_toFinset.mpr ha
  · have hne : par ≠ [] := by
      intro e
      rw [e] at h2
      simp at h2
    rw [List.head?_append_of_ne_nil _ hne]
    exact h2
  · intro e he hv
    rcases List.mem_append.mp he with h | h
    · exact h3 e h hv
    · obtain ⟨p, hp, _⟩ := hent e h
      rw [hv] at hp
      simp at hp
  · intro i hi p hp
    rcases Nat.lt_or_ge i par.length with hlt | hge
    · have hget : (par ++ new)[i] = par[i] := List.getElem_append_left hlt
      rw [hget] at hp ⊢
      obtain ⟨hmem, hnb, hns⟩ := h4 i hlt p hp
      refine ⟨?_, hnb, hns⟩
      rw [List.take_append_eq_append_take,
        show i - par.length = 0 by omega, List.take_zero, List.append_nil]
      exact hmem
    · have hilen : i - par.length < new.length := by
        rw [List.length_append] at hi
        omega
      have hget : (par ++ new)[i] = new[i - par.length] :=
        List.getElem_append_right hge
      rw [hget] at hp ⊢
      have hmemnew : new[i - par.length] ∈ new := List.getElem_mem hilen
      obtain ⟨p', hp', hpdom, hnb, hnv⟩ := hent _ hmemnew
      have hpp : p = p' := by
        rw [hp] at hp'
        exact Option.some.inj hp'
      subst hpp
      refine ⟨?_, hnb, ?_⟩
      · rw [List.take_append_eq_append_take, List.map_append]
        have htk : par.take i = par := List.take_of_length_le (by omega)
        rw [htk]
        exact List.mem_append_left _ (hdom p hpdom)
      · intro he
        apply hnv
        rw [he]
        exact hstart

/-- A fresh neighbor of a distance-k cell sits at distance k + 1. -/
theorem fresh_in_next_sphere {maze : Grid} {start : Cell} {k : Nat} {p x : Cell}
    (hp : p ∈ sphere maze start k) (hnb : x ∈ neighbors p maze)
    (hnv : x ∉ ball maze start k) : x ∈ sphere maze start (k + 1) := by
  refine Finset.mem_sdiff.mpr ⟨?_, hnv⟩
  rw [ball_succ_sphere]
  exact Finset.mem_union_right _ (mem_nbrFinset.mpr ⟨p, hp, hnb⟩)

/-- One outer round in which goal is not dequeued advances a valid state at
    distance k to a valid state at distance k + 1. -/
theorem valid_step {maze : Grid} {start goal : Cell} {k : Nat}
    {frontier : List Cell} {vis : Finset Cell} {par : Parent}
    (hv : Valid maze start k frontier vis par)
    (hgoal : goal ∉ sphere maze start k) :
    ∃ newq newpar,
      processLayer maze goal frontier ⟨[], vis, par⟩ =
        .next frontier ⟨[] ++ newq, vis ∪ nbrFinset maze frontier.toFinset,
          par ++ newpar⟩ ∧
      newq.toFinset = sphere maze start (k + 1) ∧
      Valid maze start (k + 1) ([] ++ newq)
        (vis ∪ nbrFinset maze frontier.toFinset) (par ++ newpar) := by
  obtain ⟨hfnd, hffin, hvb, hkq, hpwf, hpsph⟩ := hv
  have hgf : goal ∉ frontier := by
    intro h
    exact hgoal (hffin ▸ List.mem_toFinset.mpr h)
  have hkeys : ∀ c ∈ (⟨[], vis, par⟩ : SearchState).parent.map Prod.fst,
      c ∈ (⟨[], vis, par⟩ : SearchState).visited := by
    intro c hc
    rw [show (⟨[], vis, par⟩ : SearchState).visited = vis from rfl, ← hkq]
    exact List.mem_toFinset.mpr hc
  obtain ⟨newq, newpar, hres, hnq, hsetq, hmapfst, hent⟩ :=
    processLayer_next maze goal frontier ⟨[], vis, par⟩ hfnd hgf hkeys
  have hvis' : vis ∪ nbrFinset maze frontier.toFinset = ball maze start (k + 1) := by
    rw [hffin, hvb, ← ball_succ_sphere]
  have hq' : newq.toFinset = sphere maze start (k + 1) := by
    rw [hsetq, hffin, hvb]
    rw [show sphere maze start (k + 1) =
        ball maze start (k + 1) \ ball maze start k from rfl, ball_succ_sphere]
    ext x
    simp only [Finset.mem_sdiff, Finset.mem_union]
    tauto
  have hmemvis : ∀ p ∈ frontier, p ∈ par.map Prod.fst := by
    intro p hp
    have h1 : p ∈ vis := by
      rw [hvb]
      exact sphere_subset_ball maze start k (hffin ▸ List.mem_toFinset.mpr hp)
    rw [← hkq] at h1
    exact List.mem_toFinset.mp h1
  have hstartvis : start ∈ vis := by
    rw [hvb]
    exact start_mem_ball maze start k
  refine ⟨newq, newpar, hres, hq', ?_, ?_, ?_, ?_, ?_, ?_⟩
  · simpa using hnq
  · rw [List.nil_append]
    exact hq'
  · exact hvis'
  · rw [List.map_append, List.toFinset_append, hkq, hmapfst, hsetq]
    exact Finset.union_sdiff_self_eq_union
  · exact parentWF_extend hpwf hkq hmemvis hstartvis
      (by rw [hmapfst]; exact hnq)
      (fun e he => by
        obtain ⟨p, h2, hp, hnbr, hnv⟩ := hent e he
        exact ⟨p, h2, hp, hnbr, hnv⟩)
  · intro e he p hp
    rcases List.mem_append.mp he with h | h
    · exact hpsph e h p hp
    · obtain ⟨p', h2, hpf, hnbr, hnv⟩ := hent e h
      have hpp : p = p' := by
        rw [hp] at h2
        exact Option.some.inj h2
      subst hpp
      refine ⟨k, hffin ▸ List.mem_toFinset.mpr hpf, ?_⟩
      exact fresh_in_next_sphere (hffin ▸ List.mem_toFinset.mpr hpf) hnbr
        (by rw [← hvb]; exact hnv)

/-- The outer round that dequeues goal returns early with a truncated layer
    ending at goal and a well-formed parent map. -/
theorem valid_found {maze : Grid} {start goal : Cell} {k : Nat}
    {frontier : List Cell} {vis : Finset Cell} {par : Parent}
    (hv : Valid maze start k frontier vis par)
    (hgoal : goal ∈ sphere maze start k) :
    ∃ layer par',
      processLayer maze goal frontier ⟨[], vis, par⟩ = .found layer par' ∧
      layer ≠ [] ∧ layer.Nodup ∧ layer.toFinset ⊆ sphere maze start k ∧
      layer.getLast? = some goal ∧
      ParentWF maze start par' ∧ ParSpheres maze start par' ∧
      ((par'.map Prod.fst).toFinset : Finset Cell) ⊆ ball maze start (k + 1) ∧
      goal ∈ par'.map Prod.fst := by
  obtain ⟨hfnd, hffin, hvb, hkq, hpwf, hpsph⟩ := hv
  have hgf : goal ∈ frontier := by
    rw [← List.mem_toFinset, hffin]
    exact hgoal
  have hkeys : ∀ c ∈ (⟨[], vis, par⟩ : SearchState).parent.map Prod.fst,
      c ∈ (⟨[], vis, par⟩ : SearchState).visited := by
    intro c hc
    rw [show (⟨[], vis, par⟩ : SearchState).visited = vis from rfl, ← hkq]
    exact List.mem_toFinset.mpr hc
  obtain ⟨pre, post, newpar, hdec, hgp, hres, hnp, hent⟩ :=
    processLayer_found maze goal frontier ⟨[], vis, par⟩ hfnd hgf hkeys
  have hpresub : ∀ x ∈ pre, x ∈ frontier := by
    intro x hx
    rw [hdec]
    exact List.mem_append_left _ hx
  have hmemvis : ∀ p ∈ pre, p ∈ par.map Prod.fst := by
    intro p hp
    have h1 : p ∈ vis := by
      rw [hvb]
      exact sphere_subset_ball maze start k
        (hffin ▸ List.mem_toFinset.mpr (hpresub p hp))
    rw [← hkq] at h1
    exact List.mem_toFinset.mp h1
  have hstartvis : start ∈ vis := by
    rw [hvb]
    exact start_mem_ball maze start k
  have hlaysub : (pre ++ [goal]).Sublist frontier := by
    rw [hdec]
    apply List.Sublist.append_left
    exact List.cons_sublist_cons.mpr (List.nil_sublist post)
  refine ⟨pre ++ [goal], par ++ newpar, hres, by simp, ?_, ?_, ?_, ?_, ?_, ?_, ?_⟩
  · exact List.Nodup.sublist hlaysub hfnd
  · intro x hx
    rw [← hffin]
    exact List.mem_toFinset.mpr (hlaysub.subset (List.mem_toFinset.mp hx))
  · exact List.getLast?_concat pre
  · exact parentWF_extend hpwf hkq hmemvis hstartvis hnp
      (fun e he => by
        obtain ⟨p, h2, hp, hnbr, hnv⟩ := hent e he
        exact ⟨p, h2, hp, hnbr, hnv⟩)
  · intro e he p hp
    rcases List.mem_append.mp he with h | h
    · exact hpsph e h p hp
    · obtain ⟨p', h2, hpf, hnbr, hnv⟩ := hent e h
      have hpp : p = p' := by
        rw [hp] at h2
        exact Option.some.inj h2
      subst hpp
      have hpsphk : p ∈ sphere maze start k :=
        hffin ▸ List.mem_toFinset.mpr (hpresub p hpf)
      exact ⟨k, hpsphk, fresh_in_next_sphere hpsphk hnbr
        (by rw [← hvb]; exact hnv)⟩
  · rw [List.map_append, List.toFinset_append]
    intro x hx
    rcases Finset.mem_union.mp hx with h | h
    · rw [hkq, hvb] at h
      exact ball_subset_succ maze start k h
    · obtain ⟨e, he, hef⟩ := List.mem_map.mp (List.mem_toFinset.mp h)
      obtain ⟨p, _, hpf, hnbr, hnv⟩ := hent e he
      have hpsphk : p ∈ sphere maze start k :=
        hffin ▸ List.mem_toFinset.mpr (hpresub p hpf)
      have := fresh_in_next_sphere hpsphk hnbr (by rw [← hvb]; exact hnv)
      rw [← hef]
      exact sphere_subset_ball maze start (k + 1) this
  · rw [List.map_append]
    apply List.mem_append_left
    have h1 : goal ∈ vis := by
      rw [hvb]
      exact sphere_subset_ball maze start k hgoal
    rw [← hkq] at h1
    exact List.mem_toFinset.mp h1

/- ------------------------------------------------------------------ -/
/- The two runs of the while-loop                                     -/
/- ------------------------------------------------------------------ -/

/-- From a valid state at distance k with goal at distance k + m, the loop
    runs exactly m + 1 more rounds, stops inside the round that dequeues
    goal, and the result is the same for every sufficient budget. -/
theorem bfsLoop_found_run (maze : Grid) (start goal : Cell) :
    ∀ (m k : Nat) (frontier : List Cell) (vis : Finset Cell) (par : Parent),
      Valid maze start k frontier vis par →
      goal ∈ sphere maze start (k + m) →
      ∃ ls par',
        (∀ fuel, m + 1 ≤ fuel →
          bfsLoop maze goal fuel frontier vis par = (ls, par')) ∧
        ls.length = m + 1 ∧
        (∀ i, ∀ h : i < ls.length, ls[i].Nodup ∧
          ls[i].toFinset ⊆ sphere maze start (k + i) ∧ ls[i] ≠ []) ∧
        (∀ i, i < m → ∀ h : i < ls.length,
          ls[i].toFinset = sphere maze start (k + i)) ∧
        (∃ L, ls.getLast? = some L ∧ L.getLast? = some goal) ∧
        ParentWF maze start par' ∧ ParSpheres maze start par' ∧
        ((par'.map Prod.fst).toFinset : Finset Cell) ⊆ ball maze start (k + m + 1) ∧
        goal ∈ par'.map Prod.fst := by
  intro m
  induction m with
  | zero =>
    intro k frontier vis par hv hg
    rw [Nat.add_zero] at hg
    obtain ⟨layer, par', hres, hlne, hlnd, hlsub, hllast, hpwf, hpsph, hkeysub, hgoalk⟩ :=
      valid_found hv hg
    have hfne : frontier ≠ [] := by
      intro he
      have hf0 := hv.ffin
      rw [he] at hf0
      rw [← hf0] at hg
      simp at hg
    refine ⟨[layer], par', ?_, rfl, ?_, ?_, ⟨layer, rfl, hllast⟩, hpwf, hpsph,
      hkeysub, hgoalk⟩
    · intro fuel hfuel
      obtain ⟨f, rfl⟩ : ∃ f, fuel = f + 1 := ⟨fuel - 1, by omega⟩
      simp only [bfsLoop]
      rw [if_neg hfne, hres]
    · intro i h
      have hi0 : i = 0 := by
        simp at h
        omega
      subst hi0
      refine ⟨hlnd, ?_, hlne⟩
      rw [Nat.add_zero]
      exact hlsub
    · intro i hi h
      exact absurd hi (Nat.not_lt_zero i)
  | succ m ih =>
    intro k frontier vis par hv hg
    have hgk : goal ∉ sphere maze start k := by
      intro h
      exact (sphere_disjoint (show k ≠ k + (m + 1) by omega) h) hg
    obtain ⟨newq, newpar, hres, hq', hv'⟩ := valid_step hv hgk
    have hfne : frontier ≠ [] := by
      intro he
      have hf0 := hv.ffin
      rw [he] at hf0
      cases k with
      | zero =>
        have hst : start ∈ sphere maze start 0 := by simp [sphere]
        rw [← hf0] at hst
        simp at hst
      | succ t =>
        have hempty : sphere maze start (t + 1) = ∅ := by
          rw [← hf0]
          simp
        have hlater := sphere_empty_succ hempty (m + 1)
        rw [show t + 1 + (m + 1) = t + 1 + (m + 1) from rfl] at hlater
        rw [hlater] at hg
        simp at hg
    have hqne : newq ≠ [] := by
      intro he
      have hempty : sphere maze start (k + 1) = ∅ := by
        rw [← hq', he]
        simp
      have hlater := sphere_empty_succ hempty m
      rw [show k + 1 + m = k + (m + 1) by omega] at hlater
      rw [hlater] at hg
      simp at hg
    obtain ⟨ls', par', hrun', hlen', hlayprops', hlayeq', hlast', hpwf', hpsph',
      hkey', hgoalk'⟩ :=
      ih (k + 1) ([] ++ newq) (vis ∪ nbrFinset maze frontier.toFinset)
        (par ++ newpar) hv'
        (by rw [show k + 1 + m = k + (m + 1) by omega]; exact hg)
    refine ⟨frontier :: ls', par', ?_, by simp [hlen'], ?_, ?_, ?_, hpwf', hpsph',
      ?_, hgoalk'⟩
    · intro fuel hfuel
      obtain ⟨f, rfl⟩ : ∃ f, fuel = f + 1 := ⟨fuel - 1, by omega⟩
      simp only [bfsLoop]
      rw [if_neg hfne, hres]
      have hcall := hrun' f (by omega)
      simp only [List.nil_append] at hcall ⊢
      rw [if_neg hqne, hcall]
    · intro i h
      cases i with
      | zero =>
        refine ⟨hv.fnodup, ?_, hfne⟩
        show frontier.toFinset ⊆ sphere maze start (k + 0)
        rw [Nat.add_zero, hv.ffin]
      | succ i =>
        have hi : i < ls'.length := by
          simp at h
          omega
        obtain ⟨h1, h2, h3⟩ := hlayprops' i hi
        refine ⟨by simpa using h1, ?_, by simpa using h3⟩
        rw [show k + (i + 1) = k + 1 + i by omega]
        simpa using h2
    · intro i hi h
      cases i with
      | zero =>
        show frontier.toFinset = sphere maze start (k + 0)
        rw [Nat.add_zero]
        exact hv.ffin
      | succ i =>
        have hi' : i < ls'.length := by
          simp at h
          omega
        have := hlayeq' i (by omega) hi'
        rw [show k + (i + 1) = k + 1 + i by omega]
        simpa using this
    · obtain ⟨L, hL1, hL2⟩ := hlast'
      refine ⟨L, ?_, hL2⟩
      cases ls' with
      | nil => simp at hlen'
      | cons b t =>
        rw [List.getLast?_cons_cons]
        exact hL1
    · rw [show k + (m + 1) + 1 = k + 1 + m + 1 by omega]
      exact hkey'

/-- When a sphere is empty, the previous ball is already the full reachable
    set. -/
theorem ball_eq_reach_of_sphere_empty {maze : Grid} {start : Cell} {t : Nat}
    (h : sphere maze start (t + 1) = ∅) :
    ball maze start t = reachSet maze start := by
  have hstab := ball_stab (ball_eq_of_sphere_empty h)
  rcases Nat.le_total t ((cellsF maze).card + 1) with hle | hge
  · have h1 := hstab ((cellsF maze).card + 1 - t)
    rw [show t + ((cellsF maze).card + 1 - t) = (cellsF maze).card + 1 by omega] at h1
    unfold reachSet
    exact h1.symm
  · have h2 := ball_stab_reach maze start (t - ((cellsF maze).card + 1))
    rw [show (cellsF maze).card + 1 + (t - ((cellsF maze).card + 1)) = t by omega] at h2
    exact h2

/-- From a valid state with goal in no sphere, the loop exhausts the
    reachable component: the layers are exactly the nonempty spheres from k
    onward and the final parent keys are exactly the reachable set. -/
theorem bfsLoop_exhaust_run (maze : Grid) (start goal : Cell)
    (hgoal : ∀ j, goal ∉ sphere maze start j) :
    ∀ (n k : Nat) (frontier : List Cell) (vis : Finset Cell) (par : Parent),
      Valid maze start k frontier vis par →
      (cellsF maze \ vis).card + 1 ≤ n →
      ∃ ls par',
        (∀ fuel, n ≤ fuel → bfsLoop maze goal fuel frontier vis par = (ls, par')) ∧
        (∀ i, ∀ h : i < ls.length, ls[i].Nodup ∧
          ls[i].toFinset = sphere maze start (k + i) ∧ ls[i] ≠ []) ∧
        ParentWF maze start par' ∧ ParSpheres maze start par' ∧
        ((par'.map Prod.fst).toFinset : Finset Cell) = reachSet maze start := by
  intro n
  induction n with
  | zero =>
    intro k frontier vis par _ hc
    omega
  | succ n ih =>
    intro k frontier vis par hv hcard
    by_cases hfe : frontier = []
    · refine ⟨[], par, ?_, ?_, hv.pwf, hv.psph, ?_⟩
      · intro fuel hfuel
        obtain ⟨f, rfl⟩ : ∃ f, fuel = f + 1 := ⟨fuel - 1, by omega⟩
        simp only [bfsLoop]
        rw [if_pos hfe]
      · intro i h
        simp at h
      · have hf0 := hv.ffin
        rw [hfe] at hf0
        cases k with
        | zero =>
          exfalso
          have hst : start ∈ sphere maze start 0 := by simp [sphere]
          rw [← hf0] at hst
          simp at hst
        | succ t =>
          have hempty : sphere maze start (t + 1) = ∅ := by
            rw [← hf0]
            simp
          rw [hv.keysq, hv.vball, ball_eq_of_sphere_empty hempty]
          exact ball_eq_reach_of_sphere_empty hempty
    · have hgk : goal ∉ sphere maze start k := hgoal k
      obtain ⟨newq, newpar, hres, hq', hv'⟩ := valid_step hv hgk
      by_cases hqe : newq = []
      · subst hqe
        have hempty : sphere maze start (k + 1) = ∅ := by
          rw [← hq']
          simp
        refine ⟨[frontier], par ++ newpar, ?_, ?_, hv'.pwf, hv'.psph, ?_⟩
        · intro fuel hfuel
          obtain ⟨f, rfl⟩ : ∃ f, fuel = f + 1 := ⟨fuel - 1, by omega⟩
          simp only [bfsLoop]
          rw [if_neg hfe, hres]
          rfl
        · intro i h
          have hi0 : i = 0 := by
            simp at h
            omega
          subst hi0
          refine ⟨hv.fnodup, ?_, hfe⟩
          show frontier.toFinset = sphere maze start (k + 0)
          rw [Nat.add_zero]
          exact hv.ffin
        · rw [hv'.keysq, hv'.vball, ball_eq_of_sphere_empty hempty]
          exact ball_eq_reach_of_sphere_empty hempty
      · have hcard' : (cellsF maze \
            (vis ∪ nbrFinset maze frontier.toFinset)).card + 1 ≤ n := by
          obtain ⟨x, hx⟩ := List.exists_mem_of_ne_nil newq hqe
          have hxs : x ∈ sphere maze start (k + 1) := by
            rw [← hq']
            exact List.mem_toFinset.mpr hx
          have hxnv : x ∉ vis := by
            rw [hv.vball]
            exact (Finset.mem_sdiff.mp hxs).2
          have hxv' : x ∈ vis ∪ nbrFinset maze frontier.toFinset := by
            rw [hv'.vball]
            exact sphere_subset_ball maze start (k + 1) hxs
          have hxc : x ∈ cellsF maze := by
            have h1 : x ∈ insert start (cellsF maze) :=
              ball_subset_cells maze start (k + 1)
                (sphere_subset_ball maze start (k + 1) hxs)
            rcases Finset.mem_insert.mp h1 with h2 | h2
            · exfalso
              apply hxnv
              rw [h2, hv.vball]
              exact start_mem_ball maze start k
            · exact h2
          have hsub : cellsF maze \ (vis ∪ nbrFinset maze frontier.toFinset) ⊂
              cellsF maze \ vis := by
            constructor
            · intro y hy
              rw [Finset.mem_sdiff] at hy ⊢
              exact ⟨hy.1, fun hyv => hy.2 (Finset.mem_union_left _ hyv)⟩
            · intro hcon
              have hxin : x ∈ cellsF maze \ vis := Finset.mem_sdiff.mpr ⟨hxc, hxnv⟩
              have hxout := hcon hxin
              rw [Finset.mem_sdiff] at hxout
              exact hxout.2 hxv'
          have := Finset.card_lt_card hsub
          omega
        obtain ⟨ls', par', hrun', hprops', hpwf', hpsph', hkeys'⟩ :=
          ih (k + 1) ([] ++ newq) (vis ∪ nbrFinset maze frontier.toFinset)
            (par ++ newpar) hv' hcard'
        refine ⟨frontier :: ls', par', ?_, ?_, hpwf', hpsph', hkeys'⟩
        · intro fuel hfuel
          obtain ⟨f, rfl⟩ : ∃ f, fuel = f + 1 := ⟨fuel - 1, by omega⟩
          simp only [bfsLoop]
          rw [if_neg hfe, hres]
          have hcall := hrun' f (by omega)
          simp only [List.nil_append] at hcall ⊢
          rw [if_neg hqe, hcall]
        · intro i h
          cases i with
          | zero =>
            refine ⟨hv.fnodup, ?_, hfe⟩
            show frontier.toFinset = sphere maze start (k + 0)
            rw [Nat.add_zero]
            exact hv.ffin
          | succ i =>
            have hi : i < ls'.length := by
              simp at h
              omega
            obtain ⟨h1, h2, h3⟩ := hprops' i hi
            refine ⟨by simpa using h1, ?_, by simpa using h3⟩
            show ls'[i].toFinset = sphere maze start (k + (i + 1))
            rw [show k + (i + 1) = k + 1 + i by omega]
            exact h2

/-- The initial search state is valid at distance 0. -/
theorem valid_init (maze : Grid) (start : Cell) :
    Valid maze start 0 [start] {start} [(start, none)] := by
  refine ⟨by simp, by simp [sphere], rfl, by simp, ⟨by simp, rfl, ?_, ?_⟩, ?_⟩
  · intro e he hv
    simp at he
    rw [he]
  · intro i hi p hp
    simp at hi
    subst hi
    simp at hp
  · intro e he p hp
    simp at he
    rw [he] at hp
    simp at hp

/-- Full characterization of `_bfs_layers`: layer i sits inside the sphere
    of radius i (with equality strictly before goal's layer), the parent map
    is well formed with keys among the reachable cells, and the two regimes
    of the search — goal reachable, goal unreachable — behave as the run
    lemmas describe. -/
theorem bfs_char (maze : Grid) (start goal : Cell) :
    ∃ ls par', bfs_layers maze start goal = (ls, par') ∧
      (∀ fuel, (cellsF maze).card + 1 ≤ fuel →
        bfsLoop maze goal fuel [start] {start} [(start, none)] = (ls, par')) ∧
      (∀ i, ∀ h : i < ls.length, ls[i].Nodup ∧
        ls[i].toFinset ⊆ sphere maze start i ∧ ls[i] ≠ []) ∧
      ParentWF maze start par' ∧ ParSpheres maze start par' ∧
      ((par'.map Prod.fst).toFinset : Finset Cell) ⊆ reachSet maze start ∧
      (goal ∈ reachSet maze start →
        ∃ d, goal ∈ sphere maze start d ∧ d ≤ (cellsF maze).card ∧
          ls.length = d + 1 ∧
          (∀ i, i < d → ∀ h : i < ls.length, ls[i].toFinset = sphere maze start i) ∧
          (∃ L, ls.getLast? = some L ∧ L.getLast? = some goal) ∧
          goal ∈ par'.map Prod.fst) ∧
      (goal ∉ reachSet maze start →
        (∀ i, ∀ h : i < ls.length, ls[i].toFinset = sphere maze start i) ∧
        ((par'.map Prod.fst).toFinset : Finset Cell) = reachSet maze start ∧
        goal ∉ par'.map Prod.fst) := by
  have hvalid := valid_init maze start
  by_cases hreach : goal ∈ reachSet maze start
  · obtain ⟨d, hd, hdle⟩ := exists_sphere_of_mem_reach hreach
    obtain ⟨ls, par', hrun, hlen, hprops, heq, hlast, hpwf, hpsph, hkeys, hgk⟩ :=
      bfsLoop_found_run maze start goal d 0 [start] {start} [(start, none)]
        hvalid (by rw [Nat.zero_add]; exact hd)
    refine ⟨ls, par', ?_, ?_, ?_, hpwf, hpsph, ?_, ?_, ?_⟩
    · unfold bfs_layers
      exact hrun ((cellsF maze).card + 1) (by omega)
    · intro fuel hf
      exact hrun fuel (by omega)
    · intro i h
      obtain ⟨h1, h2, h3⟩ := hprops i h
      refine ⟨h1, ?_, h3⟩
      simpa using h2
    · intro x hx
      have h1 := hkeys hx
      have h2 : ball maze start (0 + d + 1) ⊆ ball maze start ((cellsF maze).card + 1) :=
        ball_mono maze start (by omega)
      exact h2 h1
    · intro _
      refine ⟨d, hd, hdle, hlen, ?_, hlast, hgk⟩
      intro i hi h
      simpa using heq i hi h
    · intro hnot
      exact absurd hreach hnot
  · have hnosphere : ∀ j, goal ∉ sphere maze start j := by
      intro j hj
      exact hreach (ball_subset_reach maze start j (sphere_subset_ball maze start j hj))
    obtain ⟨ls, par', hrun, hprops, hpwf, hpsph, hkeys⟩ :=
      bfsLoop_exhaust_run maze start goal hnosphere ((cellsF maze).card + 1) 0
        [start] {start} [(start, none)] hvalid
        (by
          have h1 : (cellsF maze \ {start}).card ≤ (cellsF maze).card :=
            Finset.card_le_card (Finset.sdiff_subset)
          omega)
    refine ⟨ls, par', ?_, ?_, ?_, hpwf, hpsph, ?_, ?_, ?_⟩
    · unfold bfs_layers
      exact hrun ((cellsF maze).card + 1) (le_refl _)
    · intro fuel hf
      exact hrun fuel hf
    · intro i h
      obtain ⟨h1, h2, h3⟩ := hprops i h
      refine ⟨h1, ?_, h3⟩
      simpa using Finset.subset_of_eq h2
    · rw [hkeys]
    · intro hcon
      exact absurd hcon hreach
    · intro _
      refine ⟨?_, hkeys, ?_⟩
      · intro i h
        simpa using (hprops i h).2.1
      · intro hmem
        apply hreach
        rw [← hkeys]
        exact List.mem_toFinset.mpr hmem

/- ------------------------------------------------------------------ -/
/- Path reconstruction over a well-formed parent map                  -/
/- ------------------------------------------------------------------ -/

/-- Walking the parent pointers from the entry at index i produces the
    backward chain down to start: it is duplicate-free, child-to-parent
    adjacent, ends at start, and stays among keys at indices up to i. -/
theorem reconstructAux_spec {maze : Grid} {start : Cell} {par : Parent}
    (hwf : ParentWF maze start par) :
    ∀ i, ∀ hi : i < par.length, ∀ fuel, i < fuel → ∀ acc,
      ∃ pth, reconstructAux par fuel par[i].1 acc = acc ++ pth ∧
        pth.head? = some par[i].1 ∧ pth.getLast? = some start ∧
        List.Chain' (fun a b => a ∈ neighbors b maze) pth ∧ pth.Nodup ∧
        (∀ x ∈ pth, ∃ j, ∃ hj : j < par.length, j ≤ i ∧ par[j].1 = x) := by
  obtain ⟨hnd, hhead, hnone, hidx⟩ := hwf
  intro i
  induction i using Nat.strong_induction_on with
  | _ i ih =>
    intro hi fuel hfuel acc
    obtain ⟨f, rfl⟩ : ∃ f, fuel = f + 1 := ⟨fuel - 1, by omega⟩
    cases hv : par[i].2 with
    | none =>
      have hks : par[i].1 = start := hnone par[i] (List.getElem_mem hi) hv
      have hfind : dictFind par par[i].1 = some none := by
        rw [dictFind_get hnd i hi, hv]
      refine ⟨[par[i].1], ?_, rfl, ?_, List.chain'_singleton _, by simp, ?_⟩
      · show reconstructAux par (f + 1) par[i].1 acc = acc ++ [par[i].1]
        simp only [reconstructAux]
        rw [hfind]
      · simp [hks]
      · intro x hx
        simp at hx
        exact ⟨i, hi, le_refl i, hx.symm⟩
    | some p =>
      obtain ⟨hpmem, hnbr, hnst⟩ := hidx i hi p hv
      obtain ⟨j, hji, hj, hpj⟩ : ∃ j, j < i ∧ ∃ hj : j < par.length, par[j].1 = p := by
        obtain ⟨n, hn, hne⟩ := List.mem_iff_getElem.mp hpmem
        have hnt : n < (par.take i).length := by
          rw [List.length_map] at hn
          exact hn
        have hni : n < i := by
          rw [List.length_take] at hnt
          omega
        have hnlen : n < par.length := by
          rw [List.length_take] at hnt
          omega
        refine ⟨n, hni, hnlen, ?_⟩
        rw [← hne, List.getElem_map]
        congr 1
        exact (List.getElem_take par).symm
      have hfind : dictFind par par[i].1 = some (some p) := by
        rw [dictFind_get hnd i hi, hv]
      obtain ⟨pth', heq', hh', hl', hch', hnd', hmem'⟩ :=
        ih j hji hj f (by omega) (acc ++ [par[i].1])
      refine ⟨par[i].1 :: pth', ?_, rfl, ?_, ?_, ?_, ?_⟩
      · show reconstructAux par (f + 1) par[i].1 acc = acc ++ par[i].1 :: pth'
        simp only [reconstructAux]
        rw [hfind]
        show reconstructAux par f p (acc ++ [par[i].1]) = acc ++ par[i].1 :: pth'
        rw [← hpj, heq', List.append_assoc]
        rfl
      · cases pth' with
        | nil => simp at hh'
        | cons b t =>
          rw [List.getLast?_cons_cons]
          exact hl'
      · cases pth' with
        | nil => simp at hh'
        | cons b t =>
          refine List.chain'_cons.mpr ⟨?_, hch'⟩
          have hbp : b = p := by
            have := hh'
            rw [hpj] at this
            simpa using this
          rw [hbp]
          exact hnbr
      · refine List.nodup_cons.mpr ⟨?_, hnd'⟩
        intro hmemi
        obtain ⟨l, hl2, hlj, hleq⟩ := hmem' _ hmemi
        have hli : l < i := by omega
        have hkeysnd := hnd
        have hmi : i < (par.map Prod.fst).length := by
          rw [List.length_map]
          exact hi
        have hml : l < (par.map Prod.fst).length := by
          rw [List.length_map]
          exact hl2
        have heq2 : (par.map Prod.fst)[i] = (par.map Prod.fst)[l] := by
          rw [List.getElem_map, List.getElem_map, hleq]
        have := (List.Nodup.getElem_inj_iff hkeysnd).mp heq2
        omega
      · intro x hx
        rcases List.mem_cons.mp hx with h | h
        · exact ⟨i, hi, le_refl i, h.symm⟩
        · obtain ⟨l, hl2, hlj, hleq⟩ := hmem' x h
          exact ⟨l, hl2, by omega, hleq⟩

/-- Reconstruction from a well-formed parent map that contains goal yields
    a duplicate-free neighbor walk from start to goal through keys of the
    map. -/
theorem reconstruct_path_of_wf {maze : Grid} {start goal : Cell} {par : Parent}
    (hwf : ParentWF maze start par) (hg : goal ∈ par.map Prod.fst) :
    ∃ pth, reconstruct_path par start goal = pth ∧
      pth.head? = some start ∧ pth.getLast? = some goal ∧ pth.Nodup ∧
      List.Chain' (fun a b => b ∈ neighbors a maze) pth ∧
      (∀ x ∈ pth, x ∈ par.map Prod.fst) := by
  obtain ⟨e, he, hef⟩ := List.mem_map.mp hg
  obtain ⟨i, hi, hie⟩ := List.mem_iff_getElem.mp he
  have hgi : par[i].1 = goal := by
    rw [hie]
    exact hef
  obtain ⟨pth, heq, hh, hl, hch, hnd, hmem⟩ :=
    reconstructAux_spec hwf i hi (par.length + 1) (by omega) []
  have hhk : hasKey par goal = true := hasKey_iff.mpr hg
  refine ⟨pth.reverse, ?_, ?_, ?_, ?_, ?_, ?_⟩
  · unfold reconstruct_path
    rw [if_pos hhk, ← hgi, heq]
    simp
  · rw [List.head?_reverse]
    exact hl
  · rw [List.getLast?_reverse, hh, hgi]
  · exact List.nodup_reverse.mpr hnd
  · exact List.chain'_reverse.mpr hch
  · intro x hx
    rw [List.mem_reverse] at hx
    obtain ⟨j, hj, _, hpj⟩ := hmem x hx
    exact List.mem_map.mpr ⟨par[j], List.getElem_mem hj, hpj⟩

/- ------------------------------------------------------------------ -/
/- Global consequences for the layer list                             -/
/- ------------------------------------------------------------------ -/

/-- Layers contained in successive spheres never repeat a cell overall. -/
theorem flatten_nodup_of_spheres {maze : Grid} {start : Cell} :
    ∀ (ls : List (List Cell)) (k : Nat),
      (∀ i, ∀ h : i < ls.length, ls[i].Nodup ∧
        ls[i].toFinset ⊆ sphere maze start (k + i)) →
      ls.flatten.Nodup := by
  intro ls
  induction ls with
  | nil =>
    intro k _
    simp
  | cons L rest ih =>
    intro k hp
    rw [List.flatten_cons]
    apply List.Nodup.append
    · exact (hp 0 (by simp)).1
    · apply ih (k + 1)
      intro i h
      have hh := hp (i + 1) (by simp; omega)
      refine ⟨by simpa using hh.1, ?_⟩
      have h2 := hh.2
      rw [show k + (i + 1) = k + 1 + i by omega] at h2
      simpa using h2
    · intro a haL hajoin
      have haS : a ∈ sphere maze start (k + 0) :=
        (hp 0 (by simp)).2 (List.mem_toFinset.mpr haL)
      obtain ⟨l, hl, hal⟩ := List.mem_flatten.mp hajoin
      obtain ⟨j, hj, hlj⟩ := List.mem_iff_getElem.mp hl
      have haS2 : a ∈ sphere maze start (k + (j + 1)) := by
        have hjj : j + 1 < (L :: rest).length := by
          simp
          omega
        apply (hp (j + 1) hjj).2
        apply List.mem_toFinset.mpr
        have hje : (L :: rest)[j + 1] = l := by
          rw [List.getElem_cons_succ]
          exact hlj
        rw [hje]
        exact hal
      exact sphere_disjoint (show k + 0 ≠ k + (j + 1) by omega) haS haS2

/-- A layer list of nonempty sub-sphere layers has at most one layer per
    grid cell. -/
theorem layers_length_bound {maze : Grid} {start : Cell}
    (hs : Passable maze start) (ls : List (List Cell))
    (hp : ∀ i, ∀ h : i < ls.length,
      ls[i].toFinset ⊆ sphere maze start i ∧ ls[i] ≠ []) :
    ls.length ≤ (cellsF maze).card := by
  cases hlen : ls.length with
  | zero => simp
  | succ t =>
    have hne : ∀ j, j ≤ t → (sphere maze start j).Nonempty := by
      intro j hj
      have hjl : j < ls.length := by omega
      obtain ⟨hsub, hnn⟩ := hp j hjl
      obtain ⟨x, hx⟩ := List.exists_mem_of_ne_nil _ hnn
      exact ⟨x, hsub (List.mem_toFinset.mpr hx)⟩
    have hcard := card_ball_of_spheres hne
    have hsub2 : ball maze start t ⊆ cellsF maze := by
      intro x hx
      rcases Finset.mem_insert.mp (ball_subset_cells maze start t hx) with h | h
      · rw [h]
        exact mem_cellsF_of_passable hs
      · exact h
    have := Finset.card_le_card hsub2
    omega

/-- Locating the first index whose element satisfies the predicate. -/
theorem findIdx_from {α : Type} (p : α → Bool) :
    ∀ (ls : List α) (d s : Nat), ∀ h : d < ls.length,
      (∀ i, i < d → ∀ hi : i < ls.length, p ls[i] = false) →
      p (ls[d]) = true →
      List.findIdx? p ls s = some (s + d) := by
  intro ls
  induction ls with
  | nil =>
    intro d s h
    simp at h
  | cons a t ih =>
    intro d s h hneg hpos
    cases d with
    | zero =>
      rw [List.findIdx?_cons, if_pos (by simpa using hpos)]
      rfl
    | succ d' =>
      have ha : p a = false := by
        have := hneg 0 (by omega) (by simp)
        simpa using this
      rw [List.findIdx?_cons, if_neg (by simp [ha])]
      have := ih d' (s + 1) (by simpa using h)
        (fun i hi hii => by
          have := hneg (i + 1) (by omega) (by simp; omega)
          simpa using this)
        (by simpa using hpos)
      rw [this]
      congr 1
      omega

/- ------------------------------------------------------------------ -/
/- The store-passing operations return the grid unchanged             -/
/- ------------------------------------------------------------------ -/

/-- The store-passing neighbor enumeration only reads the grid. -/
theorem neighborsSt_eq (node : Cell) (g : Grid) :
    neighborsSt node g = (neighbors node g, g) := by
  unfold neighborsSt neighbors readCell mazeAt dirList
  simp only [List.foldl_cons, List.foldl_nil, List.filterMap_cons,
    List.filterMap_nil]
  split_ifs <;> rfl

/-- The store-passing inner loop only reads the grid. -/
theorem processLayerSt_eq (goal : Cell) :
    ∀ (todo : List Cell) (st : SearchState) (g : Grid),
      processLayerSt goal todo st g = (processLayer g goal todo st, g) := by
  intro todo
  induction todo with
  | nil =>
    intro st g
    rfl
  | cons node rest ih =>
    intro st g
    by_cases hng : node = goal
    · simp only [processLayerSt, processLayer, if_pos hng]
    · simp only [processLayerSt, processLayer, if_neg hng, neighborsSt_eq, ih]
      cases hres : processLayer g goal rest ((neighbors node g).foldl (enqStep node) st) with
      | found l p => rfl
      | next l st' => rfl

/-- The store-passing while-loop only reads the grid. -/
theorem bfsLoopSt_eq (goal : Cell) :
    ∀ (fuel : Nat) (frontier : List Cell) (vis : Finset Cell) (par : Parent)
      (g : Grid),
      bfsLoopSt goal fuel frontier vis par g =
        (bfsLoop g goal fuel frontier vis par, g) := by
  intro fuel
  induction fuel with
  | zero =>
    intro frontier vis par g
    rfl
  | succ n ih =>
    intro frontier vis par g
    by_cases hfe : frontier = []
    · simp only [bfsLoopSt, bfsLoop, if_pos hfe]
    · simp only [bfsLoopSt, bfsLoop, if_neg hfe, processLayerSt_eq]
      cases hres : processLayer g goal frontier ⟨[], vis, par⟩ with
      | found l p => rfl
      | next l st =>
        by_cases hq : st.q = []
        · simp only [if_pos hq]
        · simp only [if_neg hq, ih]

/- ------------------------------------------------------------------ -/
/- Claim theorems                                                     -/
/- ------------------------------------------------------------------ -/

/-- C6: maze generation is a deterministic function of its arguments —
    two calls of `_generate_maze` with the same size, wall probability and
    seed produce identical grids, whatever random state the source carried
    before each call. -/
theorem generate_maze_deterministic (n : Int) (wall_prob : ℚ) (sd : Nat)
    (s1 s2 : Nat) :
    (generate_maze n wall_prob (some sd) s1).1 =
      (generate_maze n wall_prob (some sd) s2).1 := rfl

/-- C4 counterexample: invalid inputs are not rejected with an input
    validation error. A non-positive grid size yields an empty grid, an
    out-of-range wall probability is consumed silently, and `_bfs_layers`
    searches from a start cell that is a wall (or out of bounds) instead of
    failing fast. -/
theorem no_input_validation_cex :
    (generate_maze 0 (1 / 2) (some 7) 0).1 = [] ∧
    (generate_maze (-3) (2 : ℚ) (some 7) 0).1 = [] ∧
    (bfs_layers [[false]] (0, 0) (0, 0)) =
      ([[((0 : Int), (0 : Int))]], [(((0 : Int), (0 : Int)), none)]) ∧
    (bfs_layers [[true]] (5, 5) (5, 5)).1 = [[((5 : Int), (5 : Int))]] := by
  refine ⟨rfl, rfl, by decide, by decide⟩

/-- C4 amended: neither `_generate_maze` nor `_bfs_layers` validates its
    inputs; on every input — non-positive sizes, out-of-range
    probabilities, wall or out-of-bounds endpoints included — they proceed
    and return an ordinary value: a grid with max(n, 0) rows, and a
    nonempty layer list. -/
theorem no_input_validation_total :
    (∀ (n : Int) (wp : ℚ) (sd : Option Nat) (s : Nat),
      ((generate_maze n wp sd s).1).length = n.toNat) ∧
    (∀ (maze : Grid) (start goal : Cell),
      0 < (bfs_layers maze start goal).1.length) := by
  constructor
  · intro n wp sd s
    have key : ∀ (l : List Nat) (acc : Grid × Nat),
        ((l.foldl (fun acc _ =>
          ((acc.1 ++ [(genRow wp n.toNat acc.2).1],
            (genRow wp n.toNat acc.2).2))) acc).1).length =
          acc.1.length + l.length := by
      intro l
      induction l with
      | nil =>
        intro acc
        simp
      | cons a t ih =>
        intro acc
        rw [List.foldl_cons, ih]
        simp
        omega
    simp only [generate_maze]
    rw [key]
    simp
  · intro maze start goal
    show 0 < (bfsLoop maze goal ((cellsF maze).card + 1) [start] {start}
      [(start, none)]).1.length
    simp only [bfsLoop]
    rw [if_neg (by simp : ¬([start] = []))]
    cases hres : processLayer maze goal [start] ⟨[], {start}, [(start, none)]⟩ with
    | found l p => simp
    | next l st =>
      show 0 < (if st.q = [] then ([l], st.parent)
        else (l :: (bfsLoop maze goal (cellsF maze).card st.q st.visited
            st.parent).1,
          (bfsLoop maze goal (cellsF maze).card st.q st.visited
            st.parent).2)).1.length
      split_ifs <;> simp

/-- C7: one step of the random walker moves to an in-bounds passable
    4-neighbor of the current cell whenever one exists, and stays put
    exactly when the current cell has no legal move at all. -/
theorem step_random_walk_spec (maze : Grid) (pos : Cell) (s : Nat) :
    ((step_random_walk maze pos s).1 ∈ neighbors pos maze ∧
      Passable maze (step_random_walk maze pos s).1 ∧
      (∃ d ∈ dirList, (step_random_walk maze pos s).1 =
        (pos.1 + d.1, pos.2 + d.2))) ∨
    ((∀ c, LegalMove maze pos c → False) ∧
      (step_random_walk maze pos s).1 = pos) := by
  by_cases hne : neighbors pos maze = []
  · right
    constructor
    · intro c hc
      have h1 := mem_neighbors_iff.mpr hc
      rw [hne] at h1
      simp at h1
    · unfold step_random_walk
      rw [if_pos hne]
  · left
    have hmem : (step_random_walk maze pos s).1 ∈ neighbors pos maze := by
      unfold step_random_walk randChoice
      rw [if_neg hne]
      have hlen : 0 < (neighbors pos maze).length := List.length_pos.mpr hne
      have hidx : nextRand s % (neighbors pos maze).length <
          (neighbors pos maze).length := Nat.mod_lt _ hlen
      show (neighbors pos maze).getD
        (nextRand s % (neighbors pos maze).length) (0, 0) ∈ _
      rw [List.getD_eq_getElem _ _ hidx]
      exact List.getElem_mem hidx
    obtain ⟨⟨d, hd, hde⟩, hpass⟩ := mem_neighbors_iff.mp hmem
    exact ⟨hmem, hpass, d, hd, hde⟩

/-- C9: the operations never mutate the grid: threaded through the
    store-passing embeddings of `_bfs_layers`, `_neighbors`,
    `_reconstruct_path` and the random-walk step, the grid that comes out
    is the grid that went in. -/
theorem operations_preserve_grid (g : Grid) (start goal pos : Cell)
    (par : Parent) (s : Nat) :
    (bfs_layersSt start goal g).2 = g ∧
    (neighborsSt pos g).2 = g ∧
    (reconstruct_pathSt par start goal g).2 = g ∧
    (step_random_walkSt pos s g).2 = g := by
  refine ⟨?_, ?_, rfl, ?_⟩
  · unfold bfs_layersSt
    rw [bfsLoopSt_eq]
  · rw [neighborsSt_eq]
  · simp only [step_random_walkSt, neighborsSt_eq]
    split_ifs <;> rfl

/-- C1: for every grid and passable start and goal with goal reachable
    from start, the index of the layer of `_bfs_layers` in which goal
    appears equals the edge count of a shortest 4-directional passable path
    from start to goal. -/
theorem bfs_goal_layer_index_is_shortest_distance
    (maze : Grid) (start goal : Cell)
    (hs : Passable maze start) (hg : Passable maze goal)
    (hr : ∃ p, IsPassablePath maze start goal p) :
    ∃ d, ((bfs_layers maze start goal).1).findIdx?
        (fun L => decide (goal ∈ L)) = some d ∧
      (∃ p, IsPassablePath maze start goal p ∧ p.length = d + 1) ∧
      (∀ p, IsPassablePath maze start goal p → d + 1 ≤ p.length) := by
  have hreach : goal ∈ reachSet maze start :=
    (mem_reach_iff_passable_path hs).mpr hr
  obtain ⟨ls, par', heq, hfuel, hprops, hpwf, hpsph, hkeys, hfound, hunreach⟩ :=
    bfs_char maze start goal
  obtain ⟨d, hd, hdle, hlen, hlayeq, ⟨L, hL1, hL2⟩, hgk⟩ := hfound hreach
  have hmin : ∀ q, IsPassablePath maze start goal q → d + 1 ≤ q.length := by
    intro q hq
    have hq' := pathFrom_of_passablePath hq
    have hqne : q ≠ [] := by
      intro he
      obtain ⟨hh, _, _⟩ := hq'
      rw [he] at hh
      simp at hh
    have hlq : 0 < q.length := List.length_pos.mpr hqne
    have hball2 : goal ∈ ball maze start (q.length - 1) :=
      mem_ball_of_path hq' (by omega)
    by_contra hcon
    push_neg at hcon
    cases hdd : d with
    | zero => omega
    | succ t =>
      rw [hdd] at hd
      have hmem2 : goal ∈ ball maze start t :=
        ball_mono maze start (show q.length - 1 ≤ t by omega) hball2
      exact (Finset.mem_sdiff.mp hd).2 hmem2
  rw [heq]
  have hdlt : d < ls.length := by omega
  refine ⟨d, ?_, ?_, hmin⟩
  · have h0d := findIdx_from (fun L => decide (goal ∈ L)) ls d 0 hdlt ?_ ?_
    · simpa using h0d
    · intro i hi hii
      simp only [decide_eq_false_iff_not]
      intro hgoalin
      have hsi : goal ∈ sphere maze start i := by
        rw [← hlayeq i hi hii]
        exact List.mem_toFinset.mpr hgoalin
      exact (sphere_disjoint (show i ≠ d by omega) hsi) hd
    · simp only [decide_eq_true_eq]
      have hlsne : ls ≠ [] := by
        intro he
        rw [he] at hlen
        simp at hlen
      have hLeq := List.getLast?_eq_getLast ls hlsne
      rw [hLeq] at hL1
      have hLval : ls.getLast hlsne = L := Option.some.inj hL1
      have hgoalL : goal ∈ L := by
        have hLne : L ≠ [] := by
          intro he
          rw [he] at hL2
          simp at hL2
        have hL2' := List.getLast?_eq_getLast L hLne
        rw [hL2'] at hL2
        have := Option.some.inj hL2
        rw [← this]
        exact List.getLast_mem hLne
      have hLd : L = ls[d] := by
        rw [← hLval, List.getLast_eq_getElem ls hlsne]
        congr 1
        omega
      rw [← hLd]
      exact hgoalL
  · have hball : goal ∈ ball maze start d := sphere_subset_ball maze start d hd
    obtain ⟨p, hp, hplen⟩ := path_of_mem_ball hball
    have hpp := passablePath_of_pathFrom hs hp
    refine ⟨p, hpp, ?_⟩
    have := hmin p hpp
    omega

/-- C1 witness: on the all-free 2-by-2 grid from (0,0) to (1,1) the
    hypotheses hold and the theorem applies. -/
theorem bfs_goal_layer_index_is_shortest_distance_witness :
    Passable [[true, true], [true, true]] ((0 : Int), (0 : Int)) ∧
    Passable [[true, true], [true, true]] ((1 : Int), (1 : Int)) ∧
    (∃ p, IsPassablePath [[true, true], [true, true]] (0, 0) (1, 1) p) ∧
    (∃ d, ((bfs_layers [[true, true], [true, true]] (0, 0) (1, 1)).1).findIdx?
        (fun L => decide ((1, 1) ∈ L)) = some d ∧
      (∃ p, IsPassablePath [[true, true], [true, true]] (0, 0) (1, 1) p ∧
        p.length = d + 1) ∧
      (∀ p, IsPassablePath [[true, true], [true, true]] (0, 0) (1, 1) p →
        d + 1 ≤ p.length)) := by
  have hpath : IsPassablePath [[true, true], [true, true]] (0, 0) (1, 1)
      [(0, 0), (1, 0), (1, 1)] := by
    refine ⟨rfl, by decide, ?_, by decide⟩
    refine List.chain'_cons.mpr ⟨by decide, ?_⟩
    refine List.chain'_cons.mpr ⟨by decide, ?_⟩
    exact List.chain'_singleton _
  exact ⟨by decide, by decide, ⟨_, hpath⟩,
    bfs_goal_layer_index_is_shortest_distance [[true, true], [true, true]]
      (0, 0) (1, 1) (by decide) (by decide) ⟨_, hpath⟩⟩

/-- C3: with goal reachable, the search stops the moment goal is dequeued —
    the final returned layer ends at goal itself and no earlier layer (nor
    any later one, as none exists) contains goal. -/
theorem bfs_stops_at_goal_layer (maze : Grid) (start goal : Cell)
    (hs : Passable maze start) (hg : Passable maze goal)
    (hr : ∃ p, IsPassablePath maze start goal p) :
    ∃ L, ((bfs_layers maze start goal).1).getLast? = some L ∧
      L.getLast? = some goal ∧
      ∀ L' ∈ ((bfs_layers maze start goal).1).dropLast, goal ∉ L' := by
  have hreach : goal ∈ reachSet maze start :=
    (mem_reach_iff_passable_path hs).mpr hr
  obtain ⟨ls, par', heq, hfuel, hprops, hpwf, hpsph, hkeys, hfound, hunreach⟩ :=
    bfs_char maze start goal
  obtain ⟨d, hd, hdle, hlen, hlayeq, ⟨L, hL1, hL2⟩, hgk⟩ := hfound hreach
  have h1 : (bfs_layers maze start goal).1 = ls := by rw [heq]
  rw [h1]
  refine ⟨L, hL1, hL2, ?_⟩
  intro L' hL' hgoalin
  obtain ⟨i, hi, hieq⟩ := List.mem_iff_getElem.mp hL'
  have hid : i < d := by
    have := List.length_dropLast ls
    omega
  have hil : i < ls.length := by omega
  have hsi : goal ∈ sphere maze start i := by
    rw [← hlayeq i hid hil]
    apply List.mem_toFinset.mpr
    rw [show ls[i] = L' from by rw [← List.getElem_dropLast ls i hi]; exact hieq]
    exact hgoalin
  exact (sphere_disjoint (show i ≠ d by omega) hsi) hd

/-- C3 witness: the theorem applied on the all-free 2-by-2 grid. -/
theorem bfs_stops_at_goal_layer_witness :
    Passable [[true, true], [true, true]] ((0 : Int), (0 : Int)) ∧
    Passable [[true, true], [true, true]] ((1 : Int), (1 : Int)) ∧
    (∃ p, IsPassablePath [[true, true], [true, true]] (0, 0) (1, 1) p) ∧
    (∃ L, ((bfs_layers [[true, true], [true, true]] (0, 0) (1, 1)).1).getLast? =
        some L ∧ L.getLast? = some ((1 : Int), (1 : Int)) ∧
      ∀ L' ∈ ((bfs_layers [[true, true], [true, true]] (0, 0) (1, 1)).1).dropLast,
        ((1 : Int), (1 : Int)) ∉ L') := by
  have hpath : IsPassablePath [[true, true], [true, true]] (0, 0) (1, 1)
      [(0, 0), (1, 0), (1, 1)] := by
    refine ⟨rfl, by decide, ?_, by decide⟩
    refine List.chain'_cons.mpr ⟨by decide, ?_⟩
    refine List.chain'_cons.mpr ⟨by decide, ?_⟩
    exact List.chain'_singleton _
  exact ⟨by decide, by decide, ⟨_, hpath⟩,
    bfs_stops_at_goal_layer [[true, true], [true, true]] (0, 0) (1, 1)
      (by decide) (by decide) ⟨_, hpath⟩⟩

/-- C2: for the parent map produced by `_bfs_layers` on passable
    endpoints: when goal is absent from the map (in particular whenever
    goal is unreachable from start) reconstruction returns the empty
    sequence; when goal is present the reconstructed sequence begins with
    start, ends with goal, repeats no cell, and every consecutive pair is a
    legal 4-directional move between two passable cells. -/
theorem reconstruct_path_spec (maze : Grid) (start goal : Cell)
    (hs : Passable maze start) (hg : Passable maze goal) :
    (hasKey (bfs_layers maze start goal).2 goal = false →
      reconstruct_path (bfs_layers maze start goal).2 start goal = []) ∧
    (goal ∉ reachSet maze start →
      hasKey (bfs_layers maze start goal).2 goal = false) ∧
    (hasKey (bfs_layers maze start goal).2 goal = true →
      ∃ pth, reconstruct_path (bfs_layers maze start goal).2 start goal = pth ∧
        pth.head? = some start ∧ pth.getLast? = some goal ∧ pth.Nodup ∧
        List.Chain' (LegalMove maze) pth ∧ ∀ c ∈ pth, Passable maze c) := by
  obtain ⟨ls, par', heq, hfuel, hprops, hpwf, hpsph, hkeys, hfound, hunreach⟩ :=
    bfs_char maze start goal
  have h2 : (bfs_layers maze start goal).2 = par' := by rw [heq]
  rw [h2]
  refine ⟨?_, ?_, ?_⟩
  · intro hfalse
    unfold reconstruct_path
    rw [hfalse]
    simp
  · intro hnr
    obtain ⟨_, _, hnotkey⟩ := hunreach hnr
    rw [Bool.eq_false_iff]
    intro htrue
    exact hnotkey (hasKey_iff.mp htrue)
  · intro htrue
    have hgk : goal ∈ par'.map Prod.fst := hasKey_iff.mp htrue
    obtain ⟨pth, hpe, hh, hl, hnd, hch, hmem⟩ := reconstruct_path_of_wf hpwf hgk
    refine ⟨pth, hpe, hh, hl, hnd, ?_, ?_⟩
    · exact List.Chain'.imp (fun a b hab => mem_neighbors_iff.mp hab) hch
    · intro c hc
      have hck := hmem c hc
      have hcf : c ∈ reachSet maze start := hkeys (List.mem_toFinset.mpr hck)
      exact ball_passable hs c hcf

/-- C2 witness: the theorem applied on the all-free 2-by-2 grid, where
    goal is a key of the parent map and the reconstruction is the diagonal
    two-step path. -/
theorem reconstruct_path_spec_witness :
    Passable [[true, true], [true, true]] ((0 : Int), (0 : Int)) ∧
    Passable [[true, true], [true, true]] ((1 : Int), (1 : Int)) ∧
    ((hasKey (bfs_layers [[true, true], [true, true]] (0, 0) (1, 1)).2 (1, 1) = false →
      reconstruct_path (bfs_layers [[true, true], [true, true]] (0, 0) (1, 1)).2
        (0, 0) (1, 1) = []) ∧
    (((1 : Int), (1 : Int)) ∉ reachSet [[true, true], [true, true]] (0, 0) →
      hasKey (bfs_layers [[true, true], [true, true]] (0, 0) (1, 1)).2 (1, 1) = false) ∧
    (hasKey (bfs_layers [[true, true], [true, true]] (0, 0) (1, 1)).2 (1, 1) = true →
      ∃ pth, reconstruct_path (bfs_layers [[true, true], [true, true]] (0, 0) (1, 1)).2
          (0, 0) (1, 1) = pth ∧
        pth.head? = some ((0 : Int), (0 : Int)) ∧
        pth.getLast? = some ((1 : Int), (1 : Int)) ∧ pth.Nodup ∧
        List.Chain' (LegalMove [[true, true], [true, true]]) pth ∧
        ∀ c ∈ pth, Passable [[true, true], [true, true]] c)) :=
  ⟨by decide, by decide,
    reconstruct_path_spec [[true, true], [true, true]] (0, 0) (1, 1)
      (by decide) (by decide)⟩

/-- C5 counterexample: when goal is dequeued early the returned parent map
    does not contain one entry per reachable cell — on the all-free 2-by-2
    grid with start = goal = (0,0), the cell (1,0) is reachable yet the map
    holds only the start entry. -/
theorem parent_map_missing_reachable_cex :
    ((1 : Int), (0 : Int)) ∈ reachSet [[true, true], [true, true]] (0, 0) ∧
    ((bfs_layers [[true, true], [true, true]] (0, 0) (0, 0)).2).map Prod.fst =
      [((0 : Int), (0 : Int))] := by
  exact ⟨by decide, by decide⟩

/-- C5 amended: the parent map never overwrites an entry (its keys are
    duplicate-free), start is its first entry and the only one mapped to
    the none sentinel, every other entry points to the neighbor one BFS
    layer below that first discovered it, and whenever goal is unreachable
    from start the keys are exactly the cells reachable from start. -/
theorem parent_map_spec (maze : Grid) (start goal : Cell) :
    (((bfs_layers maze start goal).2).map Prod.fst).Nodup ∧
    ((bfs_layers maze start goal).2).head? = some (start, none) ∧
    (∀ e ∈ (bfs_layers maze start goal).2, e.2 = none → e.1 = start) ∧
    (∀ e ∈ (bfs_layers maze start goal).2, ∀ p, e.2 = some p →
      e.1 ∈ neighbors p maze ∧ e.1 ≠ start ∧
      ∃ j, p ∈ sphere maze start j ∧ e.1 ∈ sphere maze start (j + 1)) ∧
    (goal ∉ reachSet maze start →
      ((((bfs_layers maze start goal).2).map Prod.fst).toFinset : Finset Cell) =
        reachSet maze start) := by
  obtain ⟨ls, par', heq, hfuel, hprops, hpwf, hpsph, hkeys, hfound, hunreach⟩ :=
    bfs_char maze start goal
  have h2 : (bfs_layers maze start goal).2 = par' := by rw [heq]
  rw [h2]
  obtain ⟨hnd, hhead, hnone, hidx⟩ := hpwf
  refine ⟨hnd, hhead, hnone, ?_, ?_⟩
  · intro e he p hp
    obtain ⟨i, hi, hie⟩ := List.mem_iff_getElem.mp he
    obtain ⟨_, hnbr, hnst⟩ := hidx i hi p (by rw [hie]; exact hp)
    refine ⟨?_, ?_, hpsph e he p hp⟩
    · rw [← hie]
      exact hnbr
    · rw [← hie]
      exact hnst
  · intro hnr
    exact (hunreach hnr).2.1

/-- C5 witness: on the grid whose only free cell is (0,0), the goal (1,1)
    is unreachable and the parent keys are exactly the reachable set. -/
theorem parent_map_spec_witness :
    ((1 : Int), (1 : Int)) ∉ reachSet [[true, false], [false, false]] (0, 0) ∧
    ((((bfs_layers [[true, false], [false, false]] (0, 0) (1, 1)).2).map
        Prod.fst).toFinset : Finset Cell) =
      reachSet [[true, false], [false, false]] (0, 0) :=
  ⟨by decide,
    (parent_map_spec [[true, false], [false, false]] (0, 0) (1, 1)).2.2.2.2
      (by decide)⟩

/-- C8: the search is total: the visited set admits each cell at most once
    into the queue, so on a grid with passable start the loop needs no more
    rounds than the grid has cells — any budget beyond that returns the
    same result — and the layer list has at most one layer and one visited
    cell per grid cell, whether or not goal is reachable. -/
theorem bfs_terminates_within_cell_bound (maze : Grid) (start goal : Cell)
    (hs : Passable maze start) :
    (∀ extra, bfsLoop maze goal ((cellsF maze).card + 1 + extra)
        [start] {start} [(start, none)] = bfs_layers maze start goal) ∧
    (bfs_layers maze start goal).1.length ≤ (cellsF maze).card ∧
    (bfs_layers maze start goal).1.flatten.length ≤ (cellsF maze).card := by
  obtain ⟨ls, par', heq, hfuel, hprops, hpwf, hpsph, hkeys, hfound, hunreach⟩ :=
    bfs_char maze start goal
  have h1 : (bfs_layers maze start goal).1 = ls := by rw [heq]
  rw [h1]
  refine ⟨?_, ?_, ?_⟩
  · intro extra
    rw [hfuel ((cellsF maze).card + 1 + extra) (by omega), heq]
  · apply layers_length_bound hs
    intro i h
    exact ⟨(hprops i h).2.1, (hprops i h).2.2⟩
  · have hnd : ls.flatten.Nodup := by
      apply flatten_nodup_of_spheres ls 0
      intro i h
      refine ⟨(hprops i h).1, ?_⟩
      simpa using (hprops i h).2.1
    have hsub : ls.flatten.toFinset ⊆ cellsF maze := by
      intro x hx
      obtain ⟨l, hl, hxl⟩ := List.mem_flatten.mp (List.mem_toFinset.mp hx)
      obtain ⟨i, hi, hli⟩ := List.mem_iff_getElem.mp hl
      have hxs : x ∈ sphere maze start i := by
        apply (hprops i hi).2.1
        apply List.mem_toFinset.mpr
        rw [hli]
        exact hxl
      have hxb : x ∈ ball maze start i := sphere_subset_ball maze start i hxs
      rcases Finset.mem_insert.mp (ball_subset_cells maze start i hxb) with h | h
      · rw [h]
        exact mem_cellsF_of_passable hs
      · exact h
    have hc1 : ls.flatten.toFinset.card = ls.flatten.length :=
      List.toFinset_card_of_nodup hnd
    have hc2 := Finset.card_le_card hsub
    omega

/-- C8 witness: the theorem applied on the all-free 2-by-2 grid. -/
theorem bfs_terminates_within_cell_bound_witness :
    Passable [[true, true], [true, true]] ((0 : Int), (0 : Int)) ∧
    ((∀ extra, bfsLoop [[true, true], [true, true]] (1, 1)
        ((cellsF [[true, true], [true, true]]).card + 1 + extra)
        [(0, 0)] {(0, 0)} [((0, 0), none)] =
        bfs_layers [[true, true], [true, true]] (0, 0) (1, 1)) ∧
    (bfs_layers [[true, true], [true, true]] (0, 0) (1, 1)).1.length ≤
      (cellsF [[true, true], [true, true]]).card ∧
    (bfs_layers [[true, true], [true, true]] (0, 0) (1, 1)).1.flatten.length ≤
      (cellsF [[true, true], [true, true]]).card) :=
  ⟨by decide,
    bfs_terminates_within_cell_bound [[true, true], [true, true]] (0, 0) (1, 1)
      (by decide)⟩

/-- C10: the layer list never repeats a cell: every layer is
    duplicate-free, distinct layers are disjoint, and the flattened layer
    list contains each cell at most once. -/
theorem bfs_layers_no_duplicates (maze : Grid) (start goal : Cell)
    (hs : Passable maze start) (hg : Passable maze goal) :
    ((bfs_layers maze start goal).1.flatten.Nodup) ∧
    (∀ L ∈ (bfs_layers maze start goal).1, L.Nodup) ∧
    ((bfs_layers maze start goal).1.Pairwise (fun A B => ∀ c ∈ A, c ∉ B)) := by
  obtain ⟨ls, par', heq, hfuel, hprops, hpwf, hpsph, hkeys, hfound, hunreach⟩ :=
    bfs_char maze start goal
  have h1 : (bfs_layers maze start goal).1 = ls := by rw [heq]
  rw [h1]
  refine ⟨?_, ?_, ?_⟩
  · apply flatten_nodup_of_spheres ls 0
    intro i h
    refine ⟨(hprops i h).1, ?_⟩
    simpa using (hprops i h).2.1
  · intro L hL
    obtain ⟨i, hi, hie⟩ := List.mem_iff_getElem.mp hL
    rw [← hie]
    exact (hprops i hi).1
  · rw [List.pairwise_iff_getElem]
    intro i j hi hj hij c hci hcj
    have hsi : c ∈ sphere maze start i := (hprops i hi).2.1 (List.mem_toFinset.mpr hci)
    have hsj : c ∈ sphere maze start j := (hprops j hj).2.1 (List.mem_toFinset.mpr hcj)
    exact (sphere_disjoint (show i ≠ j by omega) hsi) hsj

/-- C10 witness: the theorem applied on the all-free 2-by-2 grid. -/
theorem bfs_layers_no_duplicates_witness :
    Passable [[true, true], [true, true]] ((0 : Int), (0 : Int)) ∧
    Passable [[true, true], [true, true]] ((1 : Int), (1 : Int)) ∧
    (((bfs_layers [[true, true], [true, true]] (0, 0) (1, 1)).1.flatten.Nodup) ∧
    (∀ L ∈ (bfs_layers [[true, true], [true, true]] (0, 0) (1, 1)).1, L.Nodup) ∧
    ((bfs_layers [[true, true], [true, true]] (0, 0) (1, 1)).1.Pairwise
      (fun A B => ∀ c ∈ A, c ∉ B))) :=
  ⟨by decide, by decide,
    bfs_layers_no_duplicates [[true, true], [true, true]] (0, 0) (1, 1)
      (by decide) (by decide)⟩

/-- C6 witness: determinism instantiated at concrete arguments. -/
theorem generate_maze_deterministic_witness :
    (generate_maze 3 (1 / 4) (some 42) 17).1 =
      (generate_maze 3 (1 / 4) (some 42) 99).1 :=
  generate_maze_deterministic 3 (1 / 4) 42 17 99

/-- C4 amended, witness: instantiated at concrete arguments. -/
theorem no_input_validation_total_witness :
    ((generate_maze 5 (1 / 2) (some 3) 0).1).length = (5 : Int).toNat ∧
    0 < (bfs_layers [[true]] (0, 0) (0, 0)).1.length :=
  ⟨no_input_validation_total.1 5 (1 / 2) (some 3) 0,
    no_input_validation_total.2 [[true]] (0, 0) (0, 0)⟩

/-- C7 witness: one walker step instantiated on the all-free 2-by-2 grid. -/
theorem step_random_walk_spec_witness :
    ((step_random_walk [[true, true], [true, true]] (0, 0) 5).1 ∈
        neighbors (0, 0) [[true, true], [true, true]] ∧
      Passable [[true, true], [true, true]]
        (step_random_walk [[true, true], [true, true]] (0, 0) 5).1 ∧
      (∃ d ∈ dirList, (step_random_walk [[true, true], [true, true]] (0, 0) 5).1 =
        ((0 : Int) + d.1, (0 : Int) + d.2))) ∨
    ((∀ c, LegalMove [[true, true], [true, true]] (0, 0) c → False) ∧
      (step_random_walk [[true, true], [true, true]] (0, 0) 5).1 = (0, 0)) :=
  step_random_walk_spec [[true, true], [true, true]] (0, 0) 5

/-- C9 witness: grid preservation instantiated at concrete arguments. -/
theorem operations_preserve_grid_witness :
    (bfs_layersSt (0, 0) (1, 1) [[true, true], [true, true]]).2 =
      [[true, true], [true, true]] ∧
    (neighborsSt (0, 1) [[true, true], [true, true]]).2 =
      [[true, true], [true, true]] ∧
    (reconstruct_pathSt [] (0, 0) (1, 1) [[true, true], [true, true]]).2 =
      [[true, true], [true, true]] ∧
    (step_random_walkSt (0, 1) 3 [[true, true], [true, true]]).2 =
      [[true, true], [true, true]] :=
  operations_preserve_grid [[true, true], [true, true]] (0, 0) (1, 1) (0, 1) [] 3
